import Mathlib

set_option linter.unusedSectionVars false

/-!
Shallow embedding of src/unordered_map/UnorderedMap.h.

The C++ container stores all elements in one singly linked list
(elements_, a std::forward_list, front = most recent insert) and keeps a
vector of bucket lists (table_), where each bucket entry is an iterator
into elements_ pointing at the position immediately PRECEDING the indexed
element (an anchor).  elements_.before_begin() acts as the sentinel anchor
for the current front element.

Modelling choices:
- a forward_list node is modelled as an Entry carrying a stable id (the
  node address); the chain is the list of entries, front first;
- an iterator into elements_ is an Anchor := Option Nat: none is
  before_begin(), some i is the node with id i;
- next(it) is nextOf: one step along the chain from the given position;
- machine size_t arithmetic appears only as hash % bucketCount, which is
  modelled with Nat.mod (no overflow is involved);
- the load-factor test static_cast<double>(size_) / table_.size() > 1.0
  is modelled as size > table.length, which is exactly equivalent for a
  positive bucket count in the ranges a container can reach;
- the branches that are undefined behaviour in C++ (dereferencing end()
  iterators, which the class invariant rules out) are modelled as no-ops;
  every theorem below only uses them under the invariant, where they are
  proved unreachable.
-/

namespace UMapSpec

/-- One node of the element chain; id models the stable node address of
the forward_list node, key and val model the stored pair. -/
structure Entry (K V : Type) where
  id : Nat
  key : K
  val : V
deriving DecidableEq

/-- An anchor is an iterator into the element chain denoting the position
immediately preceding an element: none is elements_.before_begin(), some i
is the node with id i. -/
abbrev Anchor := Option Nat

/-- State of the C++ class UnorderedMap: hash_ the hash strategy,
elements_ the chain (front first), table_ the bucket index, size_ the
element count.  nextId is the allocator counter producing fresh node
ids. -/
structure UnorderedMap (K V : Type) where
  hash : K → Nat
  elements : List (Entry K V)
  table : List (List Anchor)
  size : Nat
  nextId : Nat

variable {K V : Type} [DecidableEq K]

/-- std::next(it) on the element chain: the element one step after the
given position (none when that position is the last one, i.e. end()). -/
def nextOf (elems : List (Entry K V)) : Anchor → Option (Entry K V)
  | none => elems.head?
  | some i =>
    match elems.dropWhile (fun e => decide (e.id ≠ i)) with
    | [] => none
    | _ :: rest => rest.head?

/-- Loop test of Find_Previous_In_Bucket: whether the element one step
after anchor a has the given key (false when there is no such element,
which cannot happen for an anchor stored under the class invariant). -/
def anchorHasKey (elems : List (Entry K V)) (a : Anchor) (k : K) : Bool :=
  match nextOf elems a with
  | some e => decide (e.key = k)
  | none => false

/-- Find_Previous_In_Bucket's scan over one bucket list: index of the
first anchor whose one-step-after element has the given key.  The C++
function returns the iterator one before that entry; erase uses it for
erase_after and the other callers advance it by one, so the index of the
entry itself captures both uses. -/
def findAnchorIdx (elems : List (Entry K V)) (k : K) : List Anchor → Option Nat
  | [] => none
  | a :: rest =>
    if anchorHasKey elems a k then some 0
    else (findAnchorIdx elems k rest).map (· + 1)

/-- Lookup method find: compute the bucket, scan its anchor list, return
the element one step after the matching anchor (none models end()). -/
def find (m : UnorderedMap K V) (k : K) : Option (Entry K V) :=
  let bucketIndex := m.hash k % m.table.length
  let bucket := m.table.getD bucketIndex []
  match findAnchorIdx m.elements k bucket with
  | none => none
  | some i => nextOf m.elements (bucket.getD i none)

/-- One iteration of the ReHash loop for element e: if the bucket index
changed under the doubled bucket count, push the anchor value onto the
front of the new bucket and erase the entry, positionally, from the old
bucket. -/
def reHashStep (elems : List (Entry K V)) (hash : K → Nat) (prevSize : Nat)
    (t : List (List Anchor)) (e : Entry K V) : List (List Anchor) :=
  let h := hash e.key
  let prevBucketIndex := h % prevSize
  let newBucketIndex := h % t.length
  if prevBucketIndex ≠ newBucketIndex then
    match findAnchorIdx elems e.key (t.getD prevBucketIndex []) with
    | some i =>
      let a := (t.getD prevBucketIndex []).getD i none
      let t1 := t.set newBucketIndex (a :: t.getD newBucketIndex [])
      t1.set prevBucketIndex ((t1.getD prevBucketIndex []).eraseIdx i)
    | none => t
  else t

/-- Method ReHash: double the table (resize appends empty buckets) and
fold the relocation step over the element chain in iteration order. -/
def ReHash (m : UnorderedMap K V) : UnorderedMap K V :=
  let prevSize := m.table.length
  let t0 := m.table ++ List.replicate prevSize ([] : List Anchor)
  { m with table := m.elements.foldl (reHashStep m.elements m.hash prevSize) t0 }

/-- Method insert: no-op when find succeeds; otherwise repoint the old
front element's anchor (found before mutating anything) at the newly
prepended node, push a sentinel anchor into the new key's bucket,
increment size and rehash when the load factor exceeds 1. -/
def insert (m : UnorderedMap K V) (k : K) (v : V) : UnorderedMap K V :=
  if (find m k).isSome then m
  else
    let m1 :=
      if m.size > 0 then
        match m.elements.head? with
        | some front =>
          let bucketIndex := m.hash front.key % m.table.length
          let bucket := m.table.getD bucketIndex []
          match findAnchorIdx m.elements front.key bucket with
          | some i =>
            { m with
              elements := ⟨m.nextId, k, v⟩ :: m.elements,
              table := m.table.set bucketIndex (bucket.set i (some m.nextId)) }
          | none => { m with elements := ⟨m.nextId, k, v⟩ :: m.elements }
        | none => { m with elements := ⟨m.nextId, k, v⟩ :: m.elements }
      else
        { m with elements := ⟨m.nextId, k, v⟩ :: m.elements }
    let m2 := { m1 with size := m1.size + 1, nextId := m1.nextId + 1 }
    let bucketIndex2 := m2.hash k % m2.table.length
    let m3 := { m2 with
      table := m2.table.set bucketIndex2 (none :: m2.table.getD bucketIndex2 []) }
    if m3.size > m3.table.length then ReHash m3 else m3

/-- Method erase: locate the key's anchor entry in its bucket; if absent,
no-op; otherwise repoint the successor's anchor (when the erased element
has a successor) at the erased element's former predecessor, unlink the
element from the chain, and remove the anchor entry positionally. -/
def erase (m : UnorderedMap K V) (k : K) : UnorderedMap K V :=
  let bucketIndex := m.hash k % m.table.length
  let bucket := m.table.getD bucketIndex []
  match findAnchorIdx m.elements k bucket with
  | none => m
  | some i =>
    let a := bucket.getD i none
    match nextOf m.elements a with
    | none => m
    | some victim =>
      let table1 :=
        match nextOf m.elements (some victim.id) with
        | some succ =>
          let tmpBucketIndex := m.hash succ.key % m.table.length
          let tb := m.table.getD tmpBucketIndex []
          match findAnchorIdx m.elements succ.key tb with
          | some j => m.table.set tmpBucketIndex (tb.set j a)
          | none => m.table
        | none => m.table
      { m with
        elements := m.elements.eraseP (fun e => decide (e.id = victim.id)),
        table := table1.set bucketIndex ((table1.getD bucketIndex []).eraseIdx i),
        size := m.size - 1 }

/-- Method clear: empty the bucket of every chain element, then drop the
chain and reset size; the bucket count is untouched. -/
def clear (m : UnorderedMap K V) : UnorderedMap K V :=
  let t := m.elements.foldl (fun t e => t.set (m.hash e.key % t.length) []) m.table
  { m with elements := [], table := t, size := 0 }

/-- Method at: same scan as find; returns the value, none modelling the
std::out_of_range throw (the KeyNotFound condition). -/
def atVal (m : UnorderedMap K V) (k : K) : Option V :=
  let bucketIndex := m.hash k % m.table.length
  let bucket := m.table.getD bucketIndex []
  match findAnchorIdx m.elements k bucket with
  | none => none
  | some i => (nextOf m.elements (bucket.getD i none)).map (fun e => e.val)

/-- Method operator[]: same scan as find; on a hit return the stored
value, on a miss insert a default-constructed value and return the value
of the new front node (elements_.begin()->second). -/
def opIndex [Inhabited V] (m : UnorderedMap K V) (k : K) :
    UnorderedMap K V × V :=
  let bucketIndex := m.hash k % m.table.length
  let bucket := m.table.getD bucketIndex []
  match findAnchorIdx m.elements k bucket with
  | some i =>
    (m, ((nextOf m.elements (bucket.getD i none)).map (fun e => e.val)).getD default)
  | none =>
    let m1 := insert m k default
    (m1, ((m1.elements.head?).map (fun e => e.val)).getD default)

/-- Freshly constructed map: table_.resize(1) leaves one empty bucket. -/
def emptyMap (hash : K → Nat) : UnorderedMap K V :=
  { hash := hash, elements := [], table := [[]], size := 0, nextId := 0 }

/-- Body of copy assignment for distinct objects: clear the destination,
then insert every element of the source in the source's iteration order.
The hash strategy of the destination is kept, as in the source, which
never assigns hash_. -/
def copyAssignBody (dst src : UnorderedMap K V) : UnorderedMap K V :=
  src.elements.foldl (fun d e => insert d e.key e.val) (clear dst)

/-- Method operator=: the sameObject flag models the this == &other
pointer test guarding the body. -/
def opAssign (sameObject : Bool) (dst src : UnorderedMap K V) :
    UnorderedMap K V :=
  if sameObject then dst else copyAssignBody dst src

/-- What executing the assignment body on an aliased source would do: the
clear empties the (shared) chain, so the reinsertion loop iterates over
the already-cleared chain and inserts nothing. -/
def selfAssignBody (m : UnorderedMap K V) : UnorderedMap K V :=
  (clear m).elements.foldl (fun d e => insert d e.key e.val) (clear m)

/-- Range/initializer-list construction and test drivers: insert a list
of pairs, in order, into a map. -/
def insertList (m : UnorderedMap K V) (ps : List (K × V)) : UnorderedMap K V :=
  ps.foldl (fun m p => insert m p.1 p.2) m

/-- Method empty. -/
def emptyB (m : UnorderedMap K V) : Bool := m.elements.isEmpty

/-- States reachable from a freshly constructed map by the public
mutating interface. -/
inductive Reach : UnorderedMap K V → Prop where
  | init (hash : K → Nat) : Reach (emptyMap hash)
  | insert {m : UnorderedMap K V} (k : K) (v : V) :
      Reach m → Reach (insert m k v)
  | erase {m : UnorderedMap K V} (k : K) : Reach m → Reach (erase m k)
  | opIndex [Inhabited V] {m : UnorderedMap K V} (k : K) :
      Reach m → Reach (opIndex m k).1
  | clear {m : UnorderedMap K V} : Reach m → Reach (clear m)
  | assign {m m' : UnorderedMap K V} :
      Reach m → Reach m' → Reach (copyAssignBody m m')

/-- Anchor/element pairing of a chain suffix whose predecessor position
is p: each element is paired with the position immediately preceding
it. -/
def anchPairs (p : Anchor) : List (Entry K V) → List (Anchor × Entry K V)
  | [] => []
  | e :: rest => (p, e) :: anchPairs (some e.id) rest

/-- Anchor/element pairing of the whole chain: the front element is
paired with the before_begin sentinel. -/
def chainAnchors (elems : List (Entry K V)) : List (Anchor × Entry K V) :=
  anchPairs none elems

/-- Position reached after walking a chain prefix starting from p: the
predecessor position for whatever follows that prefix. -/
def endAnchor (p : Anchor) : List (Entry K V) → Anchor
  | [] => p
  | e :: rest => endAnchor (some e.id) rest

/-- The anchors that bucket b must hold for a chain under a given bucket
count: one anchor per element hashing to b, in chain order. -/
def expectedBucket (hash : K → Nat) (len b : Nat) (elems : List (Entry K V)) :
    List Anchor :=
  (chainAnchors elems).filterMap
    (fun p => if hash p.2.key % len = b then some p.1 else none)

/-- Class invariant of UnorderedMap: positive bucket count, size_ agrees
with the chain length, load factor at most 1, unique keys, node ids
unique and below the allocator counter, and every bucket holds, up to
order, exactly the anchors prescribed for it by the chain. -/
structure Inv (m : UnorderedMap K V) : Prop where
  len_pos : 1 ≤ m.table.length
  size_eq : m.size = m.elements.length
  load_le : m.size ≤ m.table.length
  keys_nodup : (m.elements.map (fun e => e.key)).Nodup
  ids_nodup : (m.elements.map (fun e => e.id)).Nodup
  ids_lt : ∀ e ∈ m.elements, e.id < m.nextId
  buckets : ∀ b, (m.table.getD b []).Perm
    (expectedBucket m.hash m.table.length b m.elements)

/-- Bucket contents midway through the ReHash loop: anchors of elements
not yet visited (sufA) are still filed under the old bucket count, the
visited ones (preA) under the new one. -/
def mixedBucket (hash : K → Nat) (len newLen b : Nat)
    (preA sufA : List (Anchor × Entry K V)) : List Anchor :=
  sufA.filterMap
      (fun p => if hash p.2.key % len = b then some p.1 else none) ++
    preA.filterMap
      (fun p => if hash p.2.key % newLen = b then some p.1 else none)

/-- Table after the front-anchor fixup of insert: the old front's anchor
entry, at position i of its bucket, is repointed at the new node. -/
def t1Table (m : UnorderedMap K V) (fkey : K) (i : Nat) :
    List (List Anchor) :=
  m.table.set (m.hash fkey % m.table.length)
    ((m.table.getD (m.hash fkey % m.table.length) []).set i (some m.nextId))

/-- Table after insert also pushed the sentinel anchor of the new node
onto the front of the new key's bucket. -/
def insertMidTable (m : UnorderedMap K V) (fkey k : K) (i : Nat) :
    List (List Anchor) :=
  (t1Table m fkey i).set (m.hash k % (t1Table m fkey i).length)
    (none :: (t1Table m fkey i).getD
      (m.hash k % (t1Table m fkey i).length) [])

/-- Identity hash over Nat, used for the concrete sample states below. -/
def hW : Nat → Nat := fun k => k

/-- A sample two-element map: insert 1 then 2 into a fresh map. -/
def mW : UnorderedMap Nat Nat := insert (insert (emptyMap hW) 1 10) 2 20

/-- A sample one-element map. -/
def mW2 : UnorderedMap Nat Nat := insert (emptyMap hW) 7 70

/-! Generic list helpers used throughout the development. -/

theorem getD_mem {α : Type} {l : List α} {i : Nat} (d : α) (h : i < l.length) :
    l.getD i d ∈ l := by
  rw [List.getD_eq_getElem?_getD, List.getElem?_eq_getElem h]
  exact List.getElem_mem h

theorem getD_perm_cons_eraseIdx {α : Type} (l : List α) (i : Nat) (d : α)
    (h : i < l.length) : l.Perm (l.getD i d :: l.eraseIdx i) := by
  induction l generalizing i with
  | nil => simp at h
  | cons x l ih =>
    cases i with
    | zero => simp [List.getD]
    | succ i =>
      have h' : i < l.length := Nat.lt_of_succ_lt_succ h
      simp only [List.getD_cons_succ, List.eraseIdx_cons_succ]
      exact ((ih i h').cons x).trans (List.Perm.swap _ _ _)

theorem set_perm_cons_eraseIdx {α : Type} (l : List α) (i : Nat) (x : α)
    (h : i < l.length) : (l.set i x).Perm (x :: l.eraseIdx i) := by
  induction l generalizing i with
  | nil => simp at h
  | cons y l ih =>
    cases i with
    | zero => simp
    | succ i =>
      have h' : i < l.length := Nat.lt_of_succ_lt_succ h
      simp only [List.set_cons_succ, List.eraseIdx_cons_succ]
      exact ((ih i h').cons y).trans (List.Perm.swap _ _ _)

theorem getD_set_self {α : Type} (l : List α) (i : Nat) (x d : α)
    (h : i < l.length) : (l.set i x).getD i d = x := by
  rw [List.getD_eq_getElem?_getD, List.getElem?_set_self h]
  rfl

theorem getD_set_ne {α : Type} (l : List α) {i j : Nat} (x d : α)
    (h : i ≠ j) : (l.set i x).getD j d = l.getD j d := by
  rw [List.getD_eq_getElem?_getD, List.getElem?_set_ne h,
    ← List.getD_eq_getElem?_getD]

theorem getD_of_length_le {α : Type} (l : List α) {i : Nat} (d : α)
    (h : l.length ≤ i) : l.getD i d = d := by
  rw [List.getD_eq_getElem?_getD, List.getElem?_eq_none h]
  rfl

theorem getD_append_left {α : Type} (l₁ l₂ : List α) {i : Nat} (d : α)
    (h : i < l₁.length) : (l₁ ++ l₂).getD i d = l₁.getD i d := by
  rw [List.getD_eq_getElem?_getD, List.getElem?_append, if_pos h,
    ← List.getD_eq_getElem?_getD]

theorem getD_append_replicate {α : Type} (t : List α) (n b : Nat) (d : α)
    (h : t.length ≤ b) : (t ++ List.replicate n d).getD b d = d := by
  rw [List.getD_eq_getElem?_getD, List.getElem?_append,
    if_neg (Nat.not_lt.mpr h), List.getElem?_replicate]
  by_cases h' : b - t.length < n
  · rw [if_pos h']
    rfl
  · rw [if_neg h']
    rfl

/-! Structure of the anchor/element pairing of a chain. -/

theorem anchPairs_map_snd (p : Anchor) (l : List (Entry K V)) :
    (anchPairs p l).map Prod.snd = l := by
  induction l generalizing p with
  | nil => rfl
  | cons e rest ih => simp [anchPairs, ih]

theorem chainAnchors_map_snd (l : List (Entry K V)) :
    (chainAnchors l).map Prod.snd = l :=
  anchPairs_map_snd none l

theorem anchPairs_append (p : Anchor) (xs ys : List (Entry K V)) :
    anchPairs p (xs ++ ys) =
      anchPairs p xs ++ anchPairs (endAnchor p xs) ys := by
  induction xs generalizing p with
  | nil => rfl
  | cons e rest ih => simp [anchPairs, endAnchor, ih]

theorem anchPairs_fst_mem {p : Anchor} {l : List (Entry K V)} {a : Anchor}
    {e : Entry K V} (h : (a, e) ∈ anchPairs p l) :
    a = p ∨ ∃ d ∈ l, a = some d.id := by
  induction l generalizing p with
  | nil => simp [anchPairs] at h
  | cons x rest ih =>
    simp only [anchPairs, List.mem_cons] at h
    rcases h with h | h
    · left
      exact congrArg Prod.fst h
    · rcases ih h with h' | ⟨d, hd, ha⟩
      · right
        exact ⟨x, List.mem_cons_self x rest, h'⟩
      · right
        exact ⟨d, List.mem_cons_of_mem x hd, ha⟩

theorem head_of_none_mem_chainAnchors {elems : List (Entry K V)}
    {e : Entry K V} (h : (none, e) ∈ chainAnchors elems) :
    elems.head? = some e := by
  cases elems with
  | nil => simp [chainAnchors, anchPairs] at h
  | cons x rest =>
    simp only [chainAnchors, anchPairs, List.mem_cons] at h
    rcases h with h | h
    · have he : e = x := congrArg Prod.snd h
      rw [List.head?_cons, ← he]
    · rcases anchPairs_fst_mem h with h' | ⟨d, _, ha⟩
      · exact absurd h' (by simp)
      · exact absurd ha (by simp)

theorem split_of_some_mem_anchPairs {p : Anchor} {l : List (Entry K V)}
    {j : Nat} {e : Entry K V} (h : (some j, e) ∈ anchPairs p l) :
    (p = some j ∧ l.head? = some e) ∨
      ∃ U d W, l = U ++ d :: e :: W ∧ d.id = j := by
  induction l generalizing p with
  | nil => simp [anchPairs] at h
  | cons x rest ih =>
    simp only [anchPairs, List.mem_cons] at h
    rcases h with h | h
    · left
      have h1 : p = some j := (congrArg Prod.fst h).symm
      have h2 : e = x := congrArg Prod.snd h
      exact ⟨h1, by rw [List.head?_cons, ← h2]⟩
    · rcases ih h with ⟨h1, h2⟩ | ⟨U, d, W, hl, hd⟩
      · right
        rcases List.head?_eq_some_iff.mp h2 with ⟨W, hW⟩
        have hxj : x.id = j := Option.some.inj h1
        exact ⟨[], x, W, by simp [hW], hxj⟩
      · right
        exact ⟨x :: U, d, W, by simp [hl], hd⟩

theorem split_of_some_mem_chainAnchors {elems : List (Entry K V)}
    {j : Nat} {e : Entry K V} (h : (some j, e) ∈ chainAnchors elems) :
    ∃ U d W, elems = U ++ d :: e :: W ∧ d.id = j := by
  rcases split_of_some_mem_anchPairs h with ⟨h1, _⟩ | h'
  · exact absurd h1 (by simp)
  · exact h'

/-! Walking the chain from a stored anchor. -/

theorem dropWhile_id_split (U W : List (Entry K V)) (d : Entry K V)
    (h : ∀ u ∈ U, u.id ≠ d.id) :
    (U ++ d :: W).dropWhile (fun e => decide (e.id ≠ d.id)) = d :: W := by
  induction U with
  | nil => simp [List.dropWhile_cons]
  | cons u U ih =>
    have hu : u.id ≠ d.id := h u (List.mem_cons_self u U)
    simp only [List.cons_append, List.dropWhile_cons, decide_eq_true_eq]
    rw [if_pos hu]
    exact ih (fun x hx => h x (List.mem_cons_of_mem u hx))

theorem nextOf_split (U W : List (Entry K V)) (d : Entry K V)
    (h : ∀ u ∈ U, u.id ≠ d.id) :
    nextOf (U ++ d :: W) (some d.id) = W.head? := by
  show (match (U ++ d :: W).dropWhile (fun e => decide (e.id ≠ d.id)) with
    | [] => none
    | _ :: rest => rest.head?) = W.head?
  rw [dropWhile_id_split U W d h]

theorem ids_ne_of_nodup_split {U W : List (Entry K V)} {d : Entry K V}
    (h : (((U ++ d :: W).map (fun e => e.id)).Nodup)) :
    ∀ u ∈ U, u.id ≠ d.id := by
  intro u hu
  rw [List.map_append] at h
  rcases List.nodup_append.mp h with ⟨_, _, hdisj⟩
  intro he
  exact hdisj (List.mem_map_of_mem _ hu) (by simp [← he])

theorem nextOf_of_mem_chainAnchors {elems : List (Entry K V)}
    (hids : ((elems.map (fun e => e.id)).Nodup)) {a : Anchor} {e : Entry K V}
    (h : (a, e) ∈ chainAnchors elems) : nextOf elems a = some e := by
  cases a with
  | none => exact head_of_none_mem_chainAnchors h
  | some j =>
    rcases split_of_some_mem_chainAnchors h with ⟨U, d, W, hl, hd⟩
    subst hl
    subst hd
    have hne := ids_ne_of_nodup_split hids
    rw [nextOf_split U (e :: W) d hne, List.head?_cons]

theorem mem_elements_of_mem_chainAnchors {elems : List (Entry K V)}
    {a : Anchor} {e : Entry K V} (h : (a, e) ∈ chainAnchors elems) :
    e ∈ elems := by
  have := List.mem_map_of_mem Prod.snd h
  rwa [chainAnchors_map_snd] at this

theorem fst_eq_of_mem_chainAnchors {elems : List (Entry K V)}
    (hids : ((elems.map (fun e => e.id)).Nodup)) {a a' : Anchor}
    {e : Entry K V} (h : (a, e) ∈ chainAnchors elems)
    (h' : (a', e) ∈ chainAnchors elems) : a = a' := by
  have hnd : ((chainAnchors elems).map Prod.snd).Nodup := by
    rw [chainAnchors_map_snd]
    exact List.Nodup.of_map _ hids
  have := List.inj_on_of_nodup_map hnd h h' rfl
  exact congrArg Prod.fst this

/-! The scan of Find_Previous_In_Bucket. -/

theorem findAnchorIdx_eq_none {elems : List (Entry K V)} {k : K}
    {l : List Anchor} :
    findAnchorIdx elems k l = none ↔
      ∀ a ∈ l, anchorHasKey elems a k = false := by
  induction l with
  | nil => simp [findAnchorIdx]
  | cons a rest ih =>
    by_cases hp : anchorHasKey elems a k = true
    · simp [findAnchorIdx, hp]
    · simp only [findAnchorIdx, if_neg hp, Option.map_eq_none', ih,
        List.mem_cons]
      constructor
      · intro h x hx
        rcases hx with hx | hx
        · subst hx
          exact Bool.not_eq_true _ ▸ (by simpa using hp)
        · exact h x hx
      · intro h x hx
        exact h x (Or.inr hx)

theorem findAnchorIdx_spec {elems : List (Entry K V)} {k : K}
    {l : List Anchor} {i : Nat} (h : findAnchorIdx elems k l = some i) :
    i < l.length ∧ anchorHasKey elems (l.getD i none) k = true := by
  induction l generalizing i with
  | nil => simp [findAnchorIdx] at h
  | cons a rest ih =>
    by_cases hp : anchorHasKey elems a k = true
    · simp only [findAnchorIdx, if_pos hp] at h
      injection h with h
      subst h
      exact ⟨Nat.succ_pos _, by simpa [List.getD] using hp⟩
    · simp only [findAnchorIdx, if_neg hp, Option.map_eq_some'] at h
      rcases h with ⟨i', hi', rfl⟩
      rcases ih hi' with ⟨h1, h2⟩
      exact ⟨Nat.succ_lt_succ h1, by simpa [List.getD] using h2⟩

theorem findAnchorIdx_isSome_of_mem {elems : List (Entry K V)} {k : K}
    {l : List Anchor} {a : Anchor} (ha : a ∈ l)
    (hk : anchorHasKey elems a k = true) :
    (findAnchorIdx elems k l).isSome := by
  induction l with
  | nil => simp at ha
  | cons b rest ih =>
    by_cases hp : anchorHasKey elems b k = true
    · simp [findAnchorIdx, hp]
    · rcases List.mem_cons.mp ha with rfl | ha'
      · exact absurd hk hp
      · simp only [findAnchorIdx, if_neg hp]
        rcases Option.isSome_iff_exists.mp (ih ha') with ⟨i, hi⟩
        simp [hi]

theorem findAnchorIdx_getD_eq {elems : List (Entry K V)} {k : K}
    {l : List Anchor} {a₀ : Anchor} (ha : a₀ ∈ l)
    (hk : anchorHasKey elems a₀ k = true)
    (huniq : ∀ a ∈ l, anchorHasKey elems a k = true → a = a₀) :
    ∃ i, findAnchorIdx elems k l = some i ∧ i < l.length ∧
      l.getD i none = a₀ := by
  rcases Option.isSome_iff_exists.mp (findAnchorIdx_isSome_of_mem ha hk) with
    ⟨i, hi⟩
  rcases findAnchorIdx_spec hi with ⟨h1, h2⟩
  exact ⟨i, hi, h1, huniq _ (getD_mem none h1) h2⟩

/-! Anchors of distinct elements are distinct values. -/

theorem anchPairs_fst_mem_map {p : Anchor} {l : List (Entry K V)} {a : Anchor}
    (h : a ∈ (anchPairs p l).map Prod.fst) :
    a = p ∨ ∃ d ∈ l, a = some d.id := by
  rcases List.mem_map.mp h with ⟨⟨a', e⟩, hmem, ha⟩
  cases ha
  exact anchPairs_fst_mem hmem

theorem anchPairs_fst_nodup {p : Anchor} {l : List (Entry K V)}
    (hids : (l.map (fun e => e.id)).Nodup)
    (hp : p = none ∨ ∃ j, p = some j ∧ j ∉ l.map (fun e => e.id)) :
    ((anchPairs p l).map Prod.fst).Nodup := by
  induction l generalizing p with
  | nil => simp [anchPairs]
  | cons x rest ih =>
    have hids' : (x.id :: rest.map (fun e => e.id)).Nodup := by
      simpa using hids
    have hx : x.id ∉ rest.map (fun e => e.id) := (List.nodup_cons.mp hids').1
    have hrest : (rest.map (fun e => e.id)).Nodup := (List.nodup_cons.mp hids').2
    simp only [anchPairs, List.map_cons, List.nodup_cons]
    constructor
    · intro hmem
      rcases anchPairs_fst_mem_map hmem with h' | ⟨d, hd, ha⟩
      · rcases hp with hp | ⟨j, hp, hj⟩
        · rw [hp] at h'
          exact absurd h' (by simp)
        · rw [hp] at h'
          have : j = x.id := Option.some.inj h'
          exact hj (by simp [this])
      · rcases hp with hp | ⟨j, hp, hj⟩
        · rw [hp] at ha
          exact absurd ha.symm (by simp)
        · rw [hp] at ha
          have : j = d.id := Option.some.inj ha
          exact hj (by
            subst this
            exact List.mem_cons.mpr (Or.inr (List.mem_map_of_mem _ hd)))
    · exact ih hrest (Or.inr ⟨x.id, rfl, hx⟩)

theorem chainAnchors_fst_nodup {elems : List (Entry K V)}
    (hids : (elems.map (fun e => e.id)).Nodup) :
    ((chainAnchors elems).map Prod.fst).Nodup :=
  anchPairs_fst_nodup hids (Or.inl rfl)

/-! Expected bucket contents. -/

theorem mem_expectedBucket {hash : K → Nat} {len b : Nat}
    {elems : List (Entry K V)} {a : Anchor} :
    a ∈ expectedBucket hash len b elems ↔
      ∃ e, (a, e) ∈ chainAnchors elems ∧ hash e.key % len = b := by
  constructor
  · intro h
    rcases List.mem_filterMap.mp h with ⟨⟨a', e⟩, hmem, hf⟩
    by_cases hc : hash e.key % len = b
    · refine ⟨e, ?_, hc⟩
      simp only [hc, if_pos] at hf
      have : a' = a := Option.some.inj hf
      rwa [this] at hmem
    · simp [hc] at hf
  · rintro ⟨e, hmem, hc⟩
    exact List.mem_filterMap.mpr ⟨(a, e), hmem, by simp [hc]⟩

theorem pair_exists_of_mem {elems : List (Entry K V)} {e : Entry K V}
    (h : e ∈ elems) : ∃ a, (a, e) ∈ chainAnchors elems := by
  have : e ∈ (chainAnchors elems).map Prod.snd := by
    rw [chainAnchors_map_snd]
    exact h
  rcases List.mem_map.mp this with ⟨⟨a, e'⟩, hmem, he⟩
  cases he
  exact ⟨a, hmem⟩

/-! Semantics of the scan test on anchors stored in buckets. -/

theorem anchorHasKey_of_pair {elems : List (Entry K V)}
    (hids : (elems.map (fun e => e.id)).Nodup) {a : Anchor} {e : Entry K V}
    (h : (a, e) ∈ chainAnchors elems) (k : K) :
    anchorHasKey elems a k = decide (e.key = k) := by
  unfold anchorHasKey
  rw [nextOf_of_mem_chainAnchors hids h]

theorem pair_unique_of_key {elems : List (Entry K V)}
    (hids : (elems.map (fun e => e.id)).Nodup)
    (hkeys : (elems.map (fun e => e.key)).Nodup)
    {a a' : Anchor} {e e' : Entry K V}
    (h : (a, e) ∈ chainAnchors elems) (h' : (a', e') ∈ chainAnchors elems)
    (hk : e.key = e'.key) : a = a' ∧ e = e' := by
  have he : e ∈ elems := mem_elements_of_mem_chainAnchors h
  have he' : e' ∈ elems := mem_elements_of_mem_chainAnchors h'
  have : e = e' := List.inj_on_of_nodup_map hkeys he he' hk
  subst this
  exact ⟨fst_eq_of_mem_chainAnchors hids h h', rfl⟩

/-- Scan failure: when no live element has the key, the scan of any list
of chain anchors fails. -/
theorem scan_none {elems : List (Entry K V)}
    (hids : (elems.map (fun e => e.id)).Nodup) {k : K}
    (habs : ∀ e ∈ elems, e.key ≠ k) {l : List Anchor}
    (hsub : ∀ a ∈ l, ∃ e, (a, e) ∈ chainAnchors elems) :
    findAnchorIdx elems k l = none := by
  rw [findAnchorIdx_eq_none]
  intro a ha
  rcases hsub a ha with ⟨e, he⟩
  rw [anchorHasKey_of_pair hids he k]
  simp [habs e (mem_elements_of_mem_chainAnchors he)]

/-- Scan success: when the key's element's own anchor is in the list and
every list member is a chain anchor, the scan finds exactly that
anchor. -/
theorem scan_found {elems : List (Entry K V)}
    (hids : (elems.map (fun e => e.id)).Nodup)
    (hkeys : (elems.map (fun e => e.key)).Nodup)
    {k : K} {a₀ : Anchor} {e₀ : Entry K V}
    (hpair : (a₀, e₀) ∈ chainAnchors elems) (hkey : e₀.key = k)
    {l : List Anchor} (hmem : a₀ ∈ l)
    (hsub : ∀ a ∈ l, ∃ e, (a, e) ∈ chainAnchors elems) :
    ∃ i, findAnchorIdx elems k l = some i ∧ i < l.length ∧
      l.getD i none = a₀ := by
  have hk0 : anchorHasKey elems a₀ k = true := by
    rw [anchorHasKey_of_pair hids hpair k]
    simp [hkey]
  refine findAnchorIdx_getD_eq hmem hk0 ?_
  intro a ha hk
  rcases hsub a ha with ⟨e, he⟩
  rw [anchorHasKey_of_pair hids he k] at hk
  have : e.key = e₀.key := by
    rw [hkey]
    exact of_decide_eq_true hk
  exact (pair_unique_of_key hids hkeys he hpair this).1

/-! Consequences of the class invariant for lookups. -/

theorem inv_bucket_sub {m : UnorderedMap K V} (hm : Inv m) (b : Nat) :
    ∀ a ∈ m.table.getD b [], ∃ e, (a, e) ∈ chainAnchors m.elements := by
  intro a ha
  have := (hm.buckets b).mem_iff.mp ha
  rcases mem_expectedBucket.mp this with ⟨e, hpair, _⟩
  exact ⟨e, hpair⟩

theorem inv_anchor_mem_bucket {m : UnorderedMap K V} (hm : Inv m)
    {a : Anchor} {e : Entry K V} (hpair : (a, e) ∈ chainAnchors m.elements) :
    a ∈ m.table.getD (m.hash e.key % m.table.length) [] := by
  refine (hm.buckets _).mem_iff.mpr ?_
  exact mem_expectedBucket.mpr ⟨e, hpair, rfl⟩

/-- Main lookup characterization: under the invariant, find is exactly
linear search of the element chain by key. -/
theorem find_eq_find? {m : UnorderedMap K V} (hm : Inv m) (k : K) :
    find m k = m.elements.find? (fun e => decide (e.key = k)) := by
  cases hfind : m.elements.find? (fun e => decide (e.key = k)) with
  | none =>
    have habs : ∀ e ∈ m.elements, e.key ≠ k := by
      intro e he
      have := List.find?_eq_none.mp hfind e he
      simpa using this
    simp only [find]
    rw [scan_none hm.ids_nodup habs (inv_bucket_sub hm _)]
  | some e₀ =>
    have he₀ : e₀ ∈ m.elements := List.mem_of_find?_eq_some hfind
    have hkey : e₀.key = k := by
      have := List.find?_some hfind
      simpa using this
    rcases pair_exists_of_mem he₀ with ⟨a₀, hpair⟩
    have hmem : a₀ ∈ m.table.getD (m.hash k % m.table.length) [] := by
      have := inv_anchor_mem_bucket hm hpair
      rwa [hkey] at this
    rcases scan_found hm.ids_nodup hm.keys_nodup hpair hkey hmem
      (inv_bucket_sub hm _) with ⟨i, hi, hlt, hgetD⟩
    simp only [find]
    rw [hi]
    show nextOf m.elements
      ((m.table.getD (m.hash k % m.table.length) []).getD i none) = some e₀
    rw [hgetD]
    exact nextOf_of_mem_chainAnchors hm.ids_nodup hpair

theorem atVal_eq_find {m : UnorderedMap K V} (k : K) :
    atVal m k = (find m k).map (fun e => e.val) := by
  simp only [atVal, find]
  cases findAnchorIdx m.elements k
      (m.table.getD (m.hash k % m.table.length) []) <;> rfl

theorem find_eq_none_iff {m : UnorderedMap K V} (hm : Inv m) (k : K) :
    find m k = none ↔ ∀ e ∈ m.elements, e.key ≠ k := by
  rw [find_eq_find? hm, List.find?_eq_none]
  simp

theorem find_mem_and_key {m : UnorderedMap K V} (hm : Inv m) {k : K}
    {e : Entry K V} (h : find m k = some e) : e ∈ m.elements ∧ e.key = k := by
  rw [find_eq_find? hm] at h
  refine ⟨List.mem_of_find?_eq_some h, ?_⟩
  have := List.find?_some h
  simpa using this

/-! Components untouched by ReHash: rehashing only reassigns anchors. -/

theorem ReHash_elements (m : UnorderedMap K V) :
    (ReHash m).elements = m.elements := rfl

theorem ReHash_size (m : UnorderedMap K V) : (ReHash m).size = m.size := rfl

theorem ReHash_nextId (m : UnorderedMap K V) :
    (ReHash m).nextId = m.nextId := rfl

theorem ReHash_hash (m : UnorderedMap K V) : (ReHash m).hash = m.hash := rfl

theorem reHashStep_length (elems : List (Entry K V)) (hash : K → Nat)
    (n : Nat) (t : List (List Anchor)) (e : Entry K V) :
    (reHashStep elems hash n t e).length = t.length := by
  simp only [reHashStep]
  repeat' split
  all_goals simp [List.length_set]

theorem foldl_reHashStep_length (elems : List (Entry K V)) (hash : K → Nat)
    (n : Nat) :
    ∀ (l : List (Entry K V)) (t : List (List Anchor)),
      (l.foldl (reHashStep elems hash n) t).length = t.length := by
  intro l
  induction l with
  | nil => intro t; rfl
  | cons e l ih =>
    intro t
    rw [List.foldl_cons, ih, reHashStep_length]

theorem ReHash_table_length (m : UnorderedMap K V) :
    (ReHash m).table.length = 2 * m.table.length := by
  simp only [ReHash]
  rw [foldl_reHashStep_length, List.length_append, List.length_replicate]
  exact (Nat.two_mul _).symm

theorem elements_ite_ReHash (c : Prop) [Decidable c] (m : UnorderedMap K V) :
    (if c then ReHash m else m).elements = m.elements := by
  split <;> rfl

theorem size_ite_ReHash (c : Prop) [Decidable c] (m : UnorderedMap K V) :
    (if c then ReHash m else m).size = m.size := by
  split <;> rfl

theorem nextId_ite_ReHash (c : Prop) [Decidable c] (m : UnorderedMap K V) :
    (if c then ReHash m else m).nextId = m.nextId := by
  split <;> rfl

theorem hash_ite_ReHash (c : Prop) [Decidable c] (m : UnorderedMap K V) :
    (if c then ReHash m else m).hash = m.hash := by
  split <;> rfl

theorem table_length_ite_ReHash (c : Prop) [Decidable c]
    (m : UnorderedMap K V) :
    (if c then ReHash m else m).table.length =
      if c then 2 * m.table.length else m.table.length := by
  split
  · exact ReHash_table_length m
  · rfl

/-! Components of insert. -/

theorem insert_of_find_isSome {m : UnorderedMap K V} {k : K} (v : V)
    (h : (find m k).isSome) : insert m k v = m := by
  unfold insert
  rw [if_pos h]

theorem insert_components {m : UnorderedMap K V} {k : K} (v : V)
    (h : find m k = none) :
    (insert m k v).elements = ⟨m.nextId, k, v⟩ :: m.elements ∧
      (insert m k v).size = m.size + 1 ∧
      (insert m k v).nextId = m.nextId + 1 ∧
      (insert m k v).hash = m.hash ∧
      (insert m k v).table.length =
        if m.table.length < m.size + 1 then 2 * m.table.length
        else m.table.length := by
  unfold insert
  rw [h]
  simp only [Option.isSome_none, Bool.false_eq_true, if_false]
  rw [elements_ite_ReHash, size_ite_ReHash, nextId_ite_ReHash,
    hash_ite_ReHash, table_length_ite_ReHash]
  split
  · split
    · split
      · exact ⟨rfl, rfl, rfl, rfl, by simp only [List.length_set]⟩
      · exact ⟨rfl, rfl, rfl, rfl, by simp only [List.length_set]⟩
    · exact ⟨rfl, rfl, rfl, rfl, by simp only [List.length_set]⟩
  · exact ⟨rfl, rfl, rfl, rfl, by simp only [List.length_set]⟩

/-! Components of clear. -/

theorem clear_elements (m : UnorderedMap K V) : (clear m).elements = [] := rfl

theorem clear_size (m : UnorderedMap K V) : (clear m).size = 0 := rfl

theorem clear_nextId (m : UnorderedMap K V) :
    (clear m).nextId = m.nextId := rfl

theorem clear_hash (m : UnorderedMap K V) : (clear m).hash = m.hash := rfl

theorem foldl_clearStep_length (hash : K → Nat) :
    ∀ (l : List (Entry K V)) (t : List (List Anchor)),
      (l.foldl (fun t e => t.set (hash e.key % t.length) []) t).length =
        t.length := by
  intro l
  induction l with
  | nil => intro t; rfl
  | cons e l ih =>
    intro t
    rw [List.foldl_cons, ih, List.length_set]

theorem clear_table_length (m : UnorderedMap K V) :
    (clear m).table.length = m.table.length := by
  show (m.elements.foldl
    (fun t e => t.set (m.hash e.key % t.length) []) m.table).length =
    m.table.length
  rw [foldl_clearStep_length]

theorem clearStep_fold_stable (hash : K → Nat) :
    ∀ (l : List (Entry K V)) (t : List (List Anchor)) (b : Nat),
      (l.foldl (fun t e => t.set (hash e.key % t.length) []) t).getD b [] = []
      ∨ (l.foldl
          (fun t e => t.set (hash e.key % t.length) []) t).getD b [] =
        t.getD b [] := by
  intro l
  induction l with
  | nil => intro t b; exact Or.inr rfl
  | cons e l ih =>
    intro t b
    rw [List.foldl_cons]
    rcases ih (t.set (hash e.key % t.length) []) b with h | h
    · exact Or.inl h
    · rw [h]
      by_cases hb : hash e.key % t.length = b
      · by_cases hr : b < t.length
        · rw [hb, getD_set_self _ _ _ _ (hb ▸ hr)]
          exact Or.inl rfl
        · rw [List.set_eq_of_length_le (by rw [hb]; exact Nat.le_of_not_lt hr)]
          exact Or.inr rfl
      · rw [getD_set_ne _ _ _ hb]
        exact Or.inr rfl

theorem clearStep_fold_mem (hash : K → Nat) :
    ∀ (l : List (Entry K V)) (t : List (List Anchor)) (e : Entry K V),
      0 < t.length → e ∈ l →
      (l.foldl (fun t e => t.set (hash e.key % t.length) []) t).getD
        (hash e.key % t.length) [] = [] := by
  intro l
  induction l with
  | nil => intro t e _ he; simp at he
  | cons x l ih =>
    intro t e hlen he
    rw [List.foldl_cons]
    rcases List.mem_cons.mp he with rfl | he'
    · rcases clearStep_fold_stable hash l (t.set (hash e.key % t.length) [])
        (hash e.key % t.length) with h | h
      · exact h
      · rw [h, getD_set_self]
        exact Nat.mod_lt _ hlen
    · have := ih (t.set (hash x.key % t.length) []) e
        (by rw [List.length_set]; exact hlen) he'
      rwa [List.length_set] at this

theorem clear_buckets {m : UnorderedMap K V} (hm : Inv m) (b : Nat) :
    (clear m).table.getD b [] = [] := by
  by_cases hr : b < m.table.length
  · cases hexp : expectedBucket m.hash m.table.length b m.elements with
    | nil =>
      have horig : m.table.getD b [] = [] := by
        have := hm.buckets b
        rw [hexp] at this
        exact List.perm_nil.mp this
      rcases clearStep_fold_stable m.hash m.elements m.table b with h | h
      · exact h
      · show (m.elements.foldl
          (fun t e => t.set (m.hash e.key % t.length) []) m.table).getD b [] = []
        rw [h, horig]
    | cons a rest =>
      have ha : a ∈ expectedBucket m.hash m.table.length b m.elements := by
        rw [hexp]
        exact List.mem_cons_self a rest
      rcases mem_expectedBucket.mp ha with ⟨e, hpair, hb⟩
      have he : e ∈ m.elements := mem_elements_of_mem_chainAnchors hpair
      have := clearStep_fold_mem m.hash m.elements m.table e
        (Nat.lt_of_lt_of_le Nat.zero_lt_one hm.len_pos) he
      rw [hb] at this
      exact this
  · apply getD_of_length_le
    rw [clear_table_length]
    exact Nat.le_of_not_lt hr

theorem inv_empty (hash : K → Nat) : Inv (emptyMap (V := V) hash) := by
  refine ⟨by simp [emptyMap], rfl, by simp [emptyMap], by simp [emptyMap],
    by simp [emptyMap], ?_, ?_⟩
  · intro e he
    simp [emptyMap] at he
  · intro b
    have h1 : (emptyMap (V := V) hash).table.getD b [] = [] := by
      cases b with
      | zero => rfl
      | succ b => rfl
    rw [h1]
    exact List.Perm.refl _

theorem inv_clear {m : UnorderedMap K V} (hm : Inv m) : Inv (clear m) := by
  refine ⟨?_, rfl, Nat.zero_le _, by simp [clear_elements],
    by simp [clear_elements], ?_, ?_⟩
  · rw [clear_table_length]
    exact hm.len_pos
  · intro e he
    rw [clear_elements] at he
    simp at he
  · intro b
    rw [clear_buckets hm b, clear_elements]
    exact List.Perm.refl []

/-! Infrastructure for the ReHash loop invariant. -/

theorem endAnchor_append (p : Anchor) (xs ys : List (Entry K V)) :
    endAnchor p (xs ++ ys) = endAnchor (endAnchor p xs) ys := by
  induction xs generalizing p with
  | nil => rfl
  | cons e rest ih => simp [endAnchor, ih]

theorem filterMap_if_mem {c : (Anchor × Entry K V) → Prop} [DecidablePred c]
    {L : List (Anchor × Entry K V)} {a : Anchor}
    (h : a ∈ L.filterMap (fun p => if c p then some p.1 else none)) :
    ∃ e, (a, e) ∈ L ∧ c (a, e) := by
  rcases List.mem_filterMap.mp h with ⟨⟨a', e⟩, hmem, hf⟩
  by_cases hc : c (a', e)
  · rw [if_pos hc] at hf
    cases Option.some.inj hf
    exact ⟨e, hmem, hc⟩
  · rw [if_neg hc] at hf
    exact absurd hf (by simp)

theorem mem_mixedBucket {hash : K → Nat} {len newLen b : Nat}
    {preA sufA : List (Anchor × Entry K V)} {a : Anchor}
    (h : a ∈ mixedBucket hash len newLen b preA sufA) :
    ∃ e, (a, e) ∈ preA ++ sufA := by
  unfold mixedBucket at h
  rcases List.mem_append.mp h with h | h
  · rcases filterMap_if_mem (c := fun p => hash p.2.key % len = b) h with
      ⟨e, hmem, _⟩
    exact ⟨e, List.mem_append.mpr (Or.inr hmem)⟩
  · rcases filterMap_if_mem (c := fun p => hash p.2.key % newLen = b) h with
      ⟨e, hmem, _⟩
    exact ⟨e, List.mem_append.mpr (Or.inl hmem)⟩

theorem expectedBucket_eq_nil_of_le {hash : K → Nat} {len b : Nat}
    (hlen : 0 < len) (hb : len ≤ b) (elems : List (Entry K V)) :
    expectedBucket hash len b elems = [] := by
  rw [expectedBucket, List.filterMap_eq_nil_iff]
  intro p _
  rw [if_neg]
  intro hc
  exact absurd (hc ▸ Nat.mod_lt (hash p.2.key) hlen) (Nat.not_lt.mpr hb)

theorem reHashStep_eq_same {elems : List (Entry K V)} {hash : K → Nat}
    {len : Nat} {t : List (List Anchor)} {e : Entry K V}
    (h : hash e.key % len = hash e.key % t.length) :
    reHashStep elems hash len t e = t := by
  simp only [reHashStep]
  rw [if_neg (fun hne => hne h)]

theorem reHashStep_eq_move {elems : List (Entry K V)} {hash : K → Nat}
    {len : Nat} {t : List (List Anchor)} {e : Entry K V}
    (hne : hash e.key % len ≠ hash e.key % t.length)
    {i : Nat}
    (hfa : findAnchorIdx elems e.key
      (t.getD (hash e.key % len) []) = some i) :
    reHashStep elems hash len t e =
      (t.set (hash e.key % t.length)
          (((t.getD (hash e.key % len) []).getD i none) ::
            t.getD (hash e.key % t.length) [])).set
        (hash e.key % len)
        ((t.getD (hash e.key % len) []).eraseIdx i) := by
  simp only [reHashStep]
  rw [if_pos hne, hfa]
  show (t.set (hash e.key % t.length)
      ((t.getD (hash e.key % len) []).getD i none ::
        t.getD (hash e.key % t.length) [])).set
    (hash e.key % len)
    (((t.set (hash e.key % t.length)
        ((t.getD (hash e.key % len) []).getD i none ::
          t.getD (hash e.key % t.length) [])).getD
      (hash e.key % len) []).eraseIdx i) = _
  rw [getD_set_ne _ _ _ (Ne.symm hne)]

/-- When the old and new bucket index of a key differ, the new one is at
least the old bucket count. -/
theorem new_index_ge_of_ne {len h : Nat} (_hlen : 0 < len)
    (hne : h % len ≠ h % (2 * len)) : len ≤ h % (2 * len) := by
  by_contra hlt
  push_neg at hlt
  have hd : h % (2 * len) % len = h % len :=
    Nat.mod_mod_of_dvd h ⟨2, by ring⟩
  rw [Nat.mod_eq_of_lt hlt] at hd
  exact hne hd.symm

theorem perm_rotate {α : Type} (u v w : List α) :
    ((u ++ v) ++ w).Perm (v ++ (w ++ u)) := by
  rw [List.append_assoc, ← List.append_assoc v w u]
  exact List.perm_append_comm

theorem perm_cons_append_singleton {α : Type} (a : α) (x y : List α) :
    (a :: (x ++ y)).Perm (x ++ (y ++ [a])) := by
  rw [← List.append_assoc]
  exact (List.perm_append_singleton a (x ++ y)).symm

theorem filterMap_rule_cons (hash : K → Nat) (L b : Nat) (a : Anchor)
    (e : Entry K V) (rest : List (Anchor × Entry K V)) :
    ((a, e) :: rest).filterMap
        (fun p => if hash p.2.key % L = b then some p.1 else none) =
      (if hash e.key % L = b then [a] else []) ++
        rest.filterMap
          (fun p => if hash p.2.key % L = b then some p.1 else none) := by
  by_cases h : hash e.key % L = b <;> simp [h]

/-- Loop invariant of ReHash: processing the chain element by element
keeps every bucket holding, up to order, the anchors of unprocessed
elements under the old bucket count together with the anchors of
processed elements under the doubled one; old buckets only ever shrink,
by erasures, so surviving entries stay in place. -/
theorem reHash_fold {elems : List (Entry K V)} {hash : K → Nat}
    (hids : (elems.map (fun e => e.id)).Nodup)
    (hkeys : (elems.map (fun e => e.key)).Nodup)
    {len : Nat} (hlen : 0 < len) :
    ∀ (suf pre : List (Entry K V)) (t : List (List Anchor)),
      elems = pre ++ suf →
      t.length = 2 * len →
      (∀ b, (t.getD b []).Perm
        (mixedBucket hash len (2 * len) b (anchPairs none pre)
          (anchPairs (endAnchor none pre) suf))) →
      (suf.foldl (reHashStep elems hash len) t).length = 2 * len ∧
      (∀ b, ((suf.foldl (reHashStep elems hash len) t).getD b []).Perm
        (mixedBucket hash len (2 * len) b (chainAnchors elems) [])) ∧
      (∀ b, b < len →
        ((suf.foldl (reHashStep elems hash len) t).getD b []).Sublist
          (t.getD b [])) := by
  intro suf
  induction suf with
  | nil =>
    intro pre t helems ht hinv
    rw [List.append_nil] at helems
    subst helems
    exact ⟨ht, fun b => hinv b, fun b _ => List.Sublist.refl _⟩
  | cons e suf' ih =>
    intro pre t helems ht hinv
    rw [List.foldl_cons]
    have hq : anchPairs (endAnchor none pre) (e :: suf') =
        (endAnchor none pre, e) :: anchPairs (some e.id) suf' := rfl
    have hCA0 : chainAnchors elems =
        anchPairs none pre ++ anchPairs (endAnchor none pre) (e :: suf') := by
      rw [helems, chainAnchors, anchPairs_append]
    have hpair : (endAnchor none pre, e) ∈ chainAnchors elems := by
      rw [hCA0, hq]
      exact List.mem_append.mpr (Or.inr (List.mem_cons_self _ _))
    have hpreA' : anchPairs none (pre ++ [e]) =
        anchPairs none pre ++ [(endAnchor none pre, e)] := by
      rw [anchPairs_append]
      rfl
    have hend' : endAnchor none (pre ++ [e]) = some e.id := by
      rw [endAnchor_append]
      rfl
    have helems' : elems = (pre ++ [e]) ++ suf' := by
      rw [helems]
      simp
    by_cases hsame : hash e.key % len = hash e.key % (2 * len)
    · have hstep : reHashStep elems hash len t e = t :=
        reHashStep_eq_same (by rw [ht]; exact hsame)
      rw [hstep]
      have hinv' : ∀ b, (t.getD b []).Perm
          (mixedBucket hash len (2 * len) b (anchPairs none (pre ++ [e]))
            (anchPairs (endAnchor none (pre ++ [e])) suf')) := by
        intro b
        rw [hpreA', hend']
        refine (hinv b).trans ?_
        unfold mixedBucket
        rw [hq, filterMap_rule_cons, List.filterMap_append,
          filterMap_rule_cons, List.filterMap_nil, List.append_nil, hsame]
        exact perm_rotate _ _ _
      exact ih (pre ++ [e]) t helems' ht hinv'
    · -- the anchor moves to a fresh bucket
      have hsub : ∀ a ∈ t.getD (hash e.key % len) [],
          ∃ e', (a, e') ∈ chainAnchors elems := by
        intro a ha
        have := (hinv (hash e.key % len)).mem_iff.mp ha
        rcases mem_mixedBucket this with ⟨e', he'⟩
        exact ⟨e', by rw [hCA0]; exact he'⟩
      have hmemq : (endAnchor none pre) ∈ t.getD (hash e.key % len) [] := by
        refine (hinv _).mem_iff.mpr ?_
        unfold mixedBucket
        refine List.mem_append.mpr (Or.inl ?_)
        rw [hq, filterMap_rule_cons]
        refine List.mem_append.mpr (Or.inl ?_)
        rw [if_pos rfl]
        exact List.mem_singleton.mpr rfl
      rcases scan_found hids hkeys hpair rfl hmemq hsub with
        ⟨i, hfa, hlt, hgetD⟩
      have hne' : hash e.key % len ≠ hash e.key % t.length := by
        rw [ht]
        exact hsame
      have hnbi_lt : hash e.key % (2 * len) < 2 * len :=
        Nat.mod_lt _ (Nat.mul_pos Nat.zero_lt_two hlen)
      have hpbi_lt : hash e.key % len < len := Nat.mod_lt _ hlen
      have hnbi_ge : len ≤ hash e.key % (2 * len) :=
        new_index_ge_of_ne hlen hsame
      have hstep2 : reHashStep elems hash len t e =
          (t.set (hash e.key % (2 * len))
              ((endAnchor none pre) :: t.getD (hash e.key % (2 * len)) [])).set
            (hash e.key % len)
            ((t.getD (hash e.key % len) []).eraseIdx i) := by
        rw [reHashStep_eq_move hne' hfa, hgetD, ht]
      rw [hstep2]
      have hT'len : ((t.set (hash e.key % (2 * len))
            ((endAnchor none pre) :: t.getD (hash e.key % (2 * len)) [])).set
          (hash e.key % len)
          ((t.getD (hash e.key % len) []).eraseIdx i)).length = 2 * len := by
        simp [List.length_set, ht]
      have hinv' : ∀ b, (((t.set (hash e.key % (2 * len))
            ((endAnchor none pre) :: t.getD (hash e.key % (2 * len)) [])).set
          (hash e.key % len)
          ((t.getD (hash e.key % len) []).eraseIdx i)).getD b []).Perm
          (mixedBucket hash len (2 * len) b (anchPairs none (pre ++ [e]))
            (anchPairs (endAnchor none (pre ++ [e])) suf')) := by
        intro b
        rw [hpreA', hend']
        by_cases hbn : b = hash e.key % (2 * len)
        · subst hbn
          rw [getD_set_ne _ _ _ (fun hh => hsame hh),
            getD_set_self _ _ _ _ (by rw [ht]; exact hnbi_lt)]
          have h0 := hinv (hash e.key % (2 * len))
          unfold mixedBucket at h0
          rw [hq, filterMap_rule_cons, if_neg hsame, List.nil_append] at h0
          unfold mixedBucket
          rw [List.filterMap_append, filterMap_rule_cons, if_pos rfl,
            List.filterMap_nil, List.append_nil]
          exact (h0.cons _).trans (perm_cons_append_singleton _ _ _)
        · by_cases hbp : b = hash e.key % len
          · subst hbp
            rw [getD_set_self _ _ _ _ (by
              rw [List.length_set, ht]
              exact Nat.lt_of_lt_of_le hpbi_lt
                (Nat.le_mul_of_pos_left len Nat.zero_lt_two))]
            have h0 := hinv (hash e.key % len)
            unfold mixedBucket at h0
            rw [hq, filterMap_rule_cons, if_pos rfl] at h0
            have h1 : (t.getD (hash e.key % len) []).Perm
                ((endAnchor none pre) ::
                  (t.getD (hash e.key % len) []).eraseIdx i) := by
              have := getD_perm_cons_eraseIdx (t.getD (hash e.key % len) [])
                i none hlt
              rwa [hgetD] at this
            unfold mixedBucket
            rw [List.filterMap_append, filterMap_rule_cons,
              if_neg (fun hh => hsame hh.symm), List.filterMap_nil,
              List.append_nil, List.append_nil]
            have h2 := h1.symm.trans h0
            rw [List.singleton_append] at h2
            exact h2.cons_inv
          · rw [getD_set_ne _ _ _ (fun hh => hbp hh.symm),
              getD_set_ne _ _ _ (fun hh => hbn hh.symm)]
            have h0 := hinv b
            unfold mixedBucket at h0
            rw [hq, filterMap_rule_cons, if_neg (fun hh => hbp hh.symm),
              List.nil_append] at h0
            unfold mixedBucket
            rw [List.filterMap_append, filterMap_rule_cons,
              if_neg (fun hh => hbn hh.symm), List.filterMap_nil,
              List.append_nil, List.append_nil]
            exact h0
      obtain ⟨hl1, hl2, hl3⟩ := ih (pre ++ [e]) _ helems' hT'len hinv'
      refine ⟨hl1, hl2, ?_⟩
      intro b hb
      refine (hl3 b hb).trans ?_
      have hbn : b ≠ hash e.key % (2 * len) :=
        Nat.ne_of_lt (Nat.lt_of_lt_of_le hb hnbi_ge)
      by_cases hbp : b = hash e.key % len
      · subst hbp
        rw [getD_set_self _ _ _ _ (by
          rw [List.length_set, ht]
          exact Nat.lt_of_lt_of_le hpbi_lt
            (Nat.le_mul_of_pos_left len Nat.zero_lt_two))]
        exact List.eraseIdx_sublist _ i
      · rw [getD_set_ne _ _ _ (fun hh => hbp hh.symm),
          getD_set_ne _ _ _ (fun hh => hbn hh.symm)]

/-- ReHash relocates every anchor to its bucket under the doubled count
and only erases entries from the old buckets. -/
theorem ReHash_main {m : UnorderedMap K V} (hlen : 0 < m.table.length)
    (hids : (m.elements.map (fun e => e.id)).Nodup)
    (hkeys : (m.elements.map (fun e => e.key)).Nodup)
    (hbuckets : ∀ b, (m.table.getD b []).Perm
      (expectedBucket m.hash m.table.length b m.elements)) :
    (∀ b, ((ReHash m).table.getD b []).Perm
      (expectedBucket m.hash (2 * m.table.length) b m.elements)) ∧
    (∀ b, b < m.table.length →
      ((ReHash m).table.getD b []).Sublist (m.table.getD b [])) := by
  have hinit : ∀ b,
      (((m.table ++ List.replicate m.table.length ([] : List Anchor)).getD
        b []).Perm
        (mixedBucket m.hash m.table.length (2 * m.table.length) b
          (anchPairs none ([] : List (Entry K V)))
          (anchPairs (endAnchor none ([] : List (Entry K V)))
            m.elements))) := by
    intro b
    have hz1 : anchPairs none ([] : List (Entry K V)) = [] := rfl
    have hz2 : endAnchor none ([] : List (Entry K V)) = none := rfl
    by_cases hb : b < m.table.length
    · rw [getD_append_left _ _ _ hb]
      refine (hbuckets b).trans ?_
      unfold mixedBucket
      rw [hz1, hz2, List.filterMap_nil, List.append_nil]
      exact List.Perm.refl _
    · rw [getD_append_replicate _ _ _ _ (Nat.le_of_not_lt hb)]
      have hnil : mixedBucket m.hash m.table.length (2 * m.table.length) b
          (anchPairs none ([] : List (Entry K V)))
          (anchPairs (endAnchor none ([] : List (Entry K V)))
            m.elements) = [] := by
        unfold mixedBucket
        rw [hz1, hz2, List.filterMap_nil, List.append_nil]
        exact expectedBucket_eq_nil_of_le hlen (Nat.le_of_not_lt hb) m.elements
      rw [hnil]
  obtain ⟨h1, h2, h3⟩ := reHash_fold hids hkeys hlen m.elements []
    (m.table ++ List.replicate m.table.length [])
    (by simp)
    (by rw [List.length_append, List.length_replicate]
        exact (Nat.two_mul _).symm)
    hinit
  constructor
  · intro b
    refine (h2 b).trans ?_
    unfold mixedBucket
    rw [List.filterMap_nil, List.nil_append]
    exact List.Perm.refl _
  · intro b hb
    have := h3 b hb
    rwa [getD_append_left _ _ _ hb] at this

theorem inv_ReHash_of {m3 : UnorderedMap K V}
    (h1 : 1 ≤ m3.table.length) (h2 : m3.size = m3.elements.length)
    (h3 : m3.size ≤ 2 * m3.table.length)
    (h4 : (m3.elements.map (fun e => e.key)).Nodup)
    (h5 : (m3.elements.map (fun e => e.id)).Nodup)
    (h6 : ∀ e ∈ m3.elements, e.id < m3.nextId)
    (h7 : ∀ b, (m3.table.getD b []).Perm
      (expectedBucket m3.hash m3.table.length b m3.elements)) :
    Inv (ReHash m3) := by
  obtain ⟨hb, _⟩ := ReHash_main h1 h5 h4 h7
  refine ⟨?_, ?_, ?_, ?_, ?_, ?_, ?_⟩
  · rw [ReHash_table_length]
    exact Nat.le_trans h1 (Nat.le_mul_of_pos_left _ Nat.zero_lt_two)
  · rw [ReHash_size, ReHash_elements]
    exact h2
  · rw [ReHash_size, ReHash_table_length]
    exact h3
  · rw [ReHash_elements]
    exact h4
  · rw [ReHash_elements]
    exact h5
  · rw [ReHash_elements, ReHash_nextId]
    exact h6
  · intro b
    rw [ReHash_hash, ReHash_elements, ReHash_table_length]
    exact hb b

/-! Invariant preservation for insert. -/

theorem t1Table_length (m : UnorderedMap K V) (fkey : K) (i : Nat) :
    (t1Table m fkey i).length = m.table.length := by
  simp [t1Table, List.length_set]

theorem insertMidTable_length (m : UnorderedMap K V) (fkey k : K) (i : Nat) :
    (insertMidTable m fkey k i).length = m.table.length := by
  simp [insertMidTable, List.length_set, t1Table]

theorem insert_mid {m : UnorderedMap K V} (hm : Inv m) (k : K) (v : V)
    (hnone : find m k = none) :
    ∃ m3 : UnorderedMap K V,
      insert m k v = (if m3.size > m3.table.length then ReHash m3 else m3) ∧
      m3.hash = m.hash ∧
      m3.elements = ⟨m.nextId, k, v⟩ :: m.elements ∧
      m3.size = m.size + 1 ∧
      m3.nextId = m.nextId + 1 ∧
      m3.table.length = m.table.length ∧
      (∀ b, (m3.table.getD b []).Perm
        (expectedBucket m.hash m.table.length b
          (⟨m.nextId, k, v⟩ :: m.elements))) := by
  have hlen1 : 0 < m.table.length := hm.len_pos
  by_cases hsz : m.size > 0
  · -- nonempty chain: the old front's anchor is repointed
    obtain ⟨f, rest, helems⟩ : ∃ f rest, m.elements = f :: rest := by
      cases he : m.elements with
      | nil =>
        have := hm.size_eq
        rw [he] at this
        simp at this
        exact absurd this (Nat.ne_of_gt hsz)
      | cons f rest => exact ⟨f, rest, rfl⟩
    have hh : m.elements.head? = some f := by
      rw [helems]
      rfl
    have hpairf : (none, f) ∈ chainAnchors m.elements := by
      rw [helems]
      exact List.mem_cons_self _ _
    have hmemf : none ∈ m.table.getD (m.hash f.key % m.table.length) [] :=
      inv_anchor_mem_bucket hm hpairf
    obtain ⟨i, hfa, hlt, hgetD⟩ := scan_found hm.ids_nodup hm.keys_nodup
      hpairf rfl hmemf (inv_bucket_sub hm _)
    have hbfr : m.hash f.key % m.table.length < m.table.length :=
      Nat.mod_lt _ hlen1
    have hbkr : m.hash k % m.table.length < m.table.length :=
      Nat.mod_lt _ hlen1
    refine ⟨{ hash := m.hash,
              elements := (⟨m.nextId, k, v⟩ :: m.elements : List (Entry K V)),
              table := insertMidTable m f.key k i,
              size := m.size + 1,
              nextId := m.nextId + 1 }, ?_, rfl, rfl, rfl, rfl,
      insertMidTable_length m f.key k i, ?_⟩
    · unfold insert
      rw [hnone]
      simp only [Option.isSome_none, Bool.false_eq_true, if_false]
      rw [if_pos hsz, hh]
      dsimp only
      rw [hfa]
      rfl
    · -- bucket contents of the intermediate table
      have holdb : ∀ b', (m.table.getD b' []).Perm
          ((if m.hash f.key % m.table.length = b'
              then [(none : Anchor)] else []) ++
            (anchPairs (some f.id) rest).filterMap
              (fun p => if m.hash p.2.key % m.table.length = b'
                then some p.1 else none)) := by
        intro b'
        refine (hm.buckets b').trans ?_
        rw [helems]
        unfold expectedBucket chainAnchors
        rw [show anchPairs none (f :: rest) =
          ((none : Anchor), f) :: anchPairs (some f.id) rest from rfl,
          filterMap_rule_cons]
      have holdf : (m.table.getD (m.hash f.key % m.table.length) []).Perm
          ((none : Anchor) :: (anchPairs (some f.id) rest).filterMap
            (fun p => if m.hash p.2.key % m.table.length =
                m.hash f.key % m.table.length
              then some p.1 else none)) := by
        have := holdb (m.hash f.key % m.table.length)
        rw [if_pos rfl, List.singleton_append] at this
        exact this
      have hsetp : ((m.table.getD (m.hash f.key % m.table.length) []).set i
            (some m.nextId)).Perm
          (some m.nextId :: (anchPairs (some f.id) rest).filterMap
            (fun p => if m.hash p.2.key % m.table.length =
                m.hash f.key % m.table.length
              then some p.1 else none)) := by
        refine (set_perm_cons_eraseIdx _ i _ hlt).trans ?_
        refine List.Perm.cons _ ?_
        have h1 := getD_perm_cons_eraseIdx
          (m.table.getD (m.hash f.key % m.table.length) []) i none hlt
        rw [hgetD] at h1
        exact (h1.symm.trans holdf).cons_inv
      have hexp : ∀ b', expectedBucket m.hash m.table.length b'
          (⟨m.nextId, k, v⟩ :: m.elements) =
          (if m.hash k % m.table.length = b'
            then [(none : Anchor)] else []) ++
          ((if m.hash f.key % m.table.length = b'
              then [(some m.nextId : Anchor)] else []) ++
            (anchPairs (some f.id) rest).filterMap
              (fun p => if m.hash p.2.key % m.table.length = b'
                then some p.1 else none)) := by
        intro b'
        rw [helems]
        unfold expectedBucket chainAnchors
        rw [show anchPairs none
            ((⟨m.nextId, k, v⟩ : Entry K V) :: f :: rest) =
          ((none : Anchor), (⟨m.nextId, k, v⟩ : Entry K V)) ::
            ((some m.nextId : Anchor), f) :: anchPairs (some f.id) rest
          from rfl, filterMap_rule_cons, filterMap_rule_cons]
      have ht1get : ∀ b', (t1Table m f.key i).getD b' [] =
          if m.hash f.key % m.table.length = b'
            then (m.table.getD (m.hash f.key % m.table.length) []).set i
              (some m.nextId)
            else m.table.getD b' [] := by
        intro b'
        unfold t1Table
        by_cases hb' : m.hash f.key % m.table.length = b'
        · rw [if_pos hb', ← hb', getD_set_self _ _ _ _ hbfr]
        · rw [if_neg hb', getD_set_ne _ _ _ hb']
      intro b
      show ((insertMidTable m f.key k i).getD b []).Perm _
      rw [hexp b]
      unfold insertMidTable
      rw [show m.hash k % (t1Table m f.key i).length =
        m.hash k % m.table.length from by rw [t1Table_length]]
      by_cases hbk : m.hash k % m.table.length = b
      · rw [if_pos hbk, hbk,
          getD_set_self _ _ _ _ (by rw [t1Table_length]; exact hbk ▸ hbkr),
          ht1get b]
        by_cases hbf : m.hash f.key % m.table.length = b
        · rw [if_pos hbf, if_pos hbf]
          have hsetp' : ((m.table.getD (m.hash f.key % m.table.length) []).set
              i (some m.nextId)).Perm
              (some m.nextId :: (anchPairs (some f.id) rest).filterMap
                (fun p => if m.hash p.2.key % m.table.length = b
                  then some p.1 else none)) := by
            rw [← hbf]
            exact hsetp
          exact List.Perm.cons none hsetp'
        · rw [if_neg hbf, if_neg hbf, List.nil_append]
          have := holdb b
          rw [if_neg hbf, List.nil_append] at this
          exact List.Perm.cons none this
      · rw [if_neg hbk, List.nil_append,
          getD_set_ne _ _ _ hbk, ht1get b]
        by_cases hbf : m.hash f.key % m.table.length = b
        · rw [if_pos hbf, if_pos hbf]
          have hsetp' : ((m.table.getD (m.hash f.key % m.table.length) []).set
              i (some m.nextId)).Perm
              (some m.nextId :: (anchPairs (some f.id) rest).filterMap
                (fun p => if m.hash p.2.key % m.table.length = b
                  then some p.1 else none)) := by
            rw [← hbf]
            exact hsetp
          exact hsetp'
        · rw [if_neg hbf, if_neg hbf, List.nil_append]
          have := holdb b
          rw [if_neg hbf, List.nil_append] at this
          exact this
  · -- empty chain
    have hsz0 : m.size = 0 := Nat.eq_zero_of_not_pos hsz
    have helems0 : m.elements = [] := by
      have := hm.size_eq
      rw [hsz0] at this
      exact List.length_eq_zero.mp this.symm
    refine ⟨{ hash := m.hash,
              elements := (⟨m.nextId, k, v⟩ :: m.elements : List (Entry K V)),
              table := m.table.set (m.hash k % m.table.length)
                (none :: m.table.getD (m.hash k % m.table.length) []),
              size := m.size + 1,
              nextId := m.nextId + 1 }, ?_, rfl, rfl, rfl, rfl,
      by simp [List.length_set], ?_⟩
    · unfold insert
      rw [hnone]
      simp only [Option.isSome_none, Bool.false_eq_true, if_false]
      rw [if_neg hsz]
    · intro b
      have hbkr : m.hash k % m.table.length < m.table.length :=
        Nat.mod_lt _ hlen1
      have hexp : ∀ b', expectedBucket m.hash m.table.length b'
          (⟨m.nextId, k, v⟩ :: m.elements) =
          (if m.hash k % m.table.length = b'
            then [(none : Anchor)] else []) := by
        intro b'
        rw [helems0]
        unfold expectedBucket chainAnchors
        rw [show anchPairs none [(⟨m.nextId, k, v⟩ : Entry K V)] =
          [((none : Anchor), (⟨m.nextId, k, v⟩ : Entry K V))] from rfl,
          filterMap_rule_cons, List.filterMap_nil, List.append_nil]
      have hold : ∀ b', m.table.getD b' [] = [] := by
        intro b'
        have := hm.buckets b'
        rw [helems0] at this
        exact List.perm_nil.mp this
      rw [hexp b]
      by_cases hbk : m.hash k % m.table.length = b
      · rw [if_pos hbk, hbk, getD_set_self _ _ _ _ (hbk ▸ hbkr), hold b]
      · rw [if_neg hbk, getD_set_ne _ _ _ hbk, hold b]

theorem inv_insert {m : UnorderedMap K V} (hm : Inv m) (k : K) (v : V) :
    Inv (insert m k v) := by
  by_cases hf : (find m k).isSome
  · rw [insert_of_find_isSome v hf]
    exact hm
  · have hnone : find m k = none := Option.not_isSome_iff_eq_none.mp hf
    have habs : ∀ e ∈ m.elements, e.key ≠ k := (find_eq_none_iff hm k).mp hnone
    obtain ⟨m3, heq, hhash, helems, hsize, hnid, hlen, hbuckets⟩ :=
      insert_mid hm k v hnone
    have hkeys3 : (m3.elements.map (fun e => e.key)).Nodup := by
      rw [helems]
      simp only [List.map_cons]
      refine List.nodup_cons.mpr ⟨?_, hm.keys_nodup⟩
      intro hmem
      rcases List.mem_map.mp hmem with ⟨e, he, hke⟩
      exact habs e he hke
    have hids3 : (m3.elements.map (fun e => e.id)).Nodup := by
      rw [helems]
      simp only [List.map_cons]
      refine List.nodup_cons.mpr ⟨?_, hm.ids_nodup⟩
      intro hmem
      rcases List.mem_map.mp hmem with ⟨e, he, hid⟩
      exact absurd hid (Nat.ne_of_lt (hm.ids_lt e he))
    have hidlt3 : ∀ e ∈ m3.elements, e.id < m3.nextId := by
      rw [helems, hnid]
      intro e he
      rcases List.mem_cons.mp he with rfl | he'
      · exact Nat.lt_succ_self _
      · exact Nat.lt_succ_of_lt (hm.ids_lt e he')
    have hsz3 : m3.size = m3.elements.length := by
      rw [hsize, helems, List.length_cons, hm.size_eq]
    have hlenpos : 1 ≤ m3.table.length := by
      rw [hlen]
      exact hm.len_pos
    have hbuck3 : ∀ b, (m3.table.getD b []).Perm
        (expectedBucket m3.hash m3.table.length b m3.elements) := by
      intro b
      rw [hhash, hlen, helems]
      exact hbuckets b
    rw [heq]
    by_cases hload : m3.size > m3.table.length
    · rw [if_pos hload]
      refine inv_ReHash_of hlenpos hsz3 ?_ hkeys3 hids3 hidlt3 hbuck3
      rw [hsize, hlen, Nat.two_mul]
      exact Nat.add_le_add hm.load_le hm.len_pos
    · rw [if_neg hload]
      exact ⟨hlenpos, hsz3, Nat.le_of_not_lt hload, hkeys3, hids3, hidlt3,
        hbuck3⟩

/-! Invariant preservation for erase. -/

theorem perm_pull_mid {α : Type} (x y z : List α) (a : α) :
    (x ++ (y ++ (a :: z))).Perm (a :: (x ++ (y ++ z))) := by
  have h1 : x ++ (y ++ (a :: z)) = (x ++ y) ++ (a :: z) :=
    (List.append_assoc x y _).symm
  have h2 : (x ++ y) ++ z = x ++ (y ++ z) := List.append_assoc x y z
  rw [h1, ← h2]
  exact List.perm_middle

theorem erase_of_find_none {m : UnorderedMap K V} (hm : Inv m) {k : K}
    (hnone : find m k = none) : erase m k = m := by
  have habs : ∀ e ∈ m.elements, e.key ≠ k := (find_eq_none_iff hm k).mp hnone
  have hfa : findAnchorIdx m.elements k
      (m.table.getD (m.hash k % m.table.length) []) = none :=
    scan_none hm.ids_nodup habs (inv_bucket_sub hm _)
  simp only [erase]
  rw [hfa]

theorem erase_found_spec {m : UnorderedMap K V} (hm : Inv m) {k : K}
    {e₀ : Entry K V} (hfind : find m k = some e₀) :
    ∃ P S, m.elements = P ++ e₀ :: S ∧ (∀ x ∈ P, x.key ≠ k) ∧ e₀.key = k ∧
      (erase m k).elements = P ++ S ∧
      (erase m k).size = m.size - 1 ∧
      (erase m k).hash = m.hash ∧
      (erase m k).nextId = m.nextId ∧
      (erase m k).table.length = m.table.length ∧
      Inv (erase m k) := by
  obtain ⟨he₀mem, hkey⟩ := find_mem_and_key hm hfind
  obtain ⟨P, S, hsplit⟩ := List.append_of_mem he₀mem
  have hPne : ∀ x ∈ P, x.key ≠ k := by
    intro x hx hxk
    have hxmem : x ∈ m.elements := by
      rw [hsplit]
      exact List.mem_append.mpr (Or.inl hx)
    have hxe : x = e₀ := List.inj_on_of_nodup_map hm.keys_nodup hxmem he₀mem
      (by rw [hxk, hkey])
    subst hxe
    have hnd := hm.ids_nodup
    rw [hsplit, List.map_append, List.map_cons] at hnd
    rcases List.nodup_append.mp hnd with ⟨_, _, hdisj⟩
    exact hdisj (List.mem_map_of_mem _ hx) (List.mem_cons_self _ _)
  have hPid : ∀ u ∈ P, u.id ≠ e₀.id := by
    have h := hm.ids_nodup
    rw [hsplit] at h
    exact ids_ne_of_nodup_split h
  have hCA1 : chainAnchors m.elements =
      anchPairs none P ++ anchPairs (endAnchor none P) (e₀ :: S) := by
    rw [hsplit, chainAnchors, anchPairs_append]
  have hpairE : ((endAnchor none P : Anchor), e₀) ∈
      chainAnchors m.elements := by
    rw [hCA1]
    exact List.mem_append.mpr (Or.inr (List.mem_cons_self _ _))
  have hmemE : (endAnchor none P) ∈
      m.table.getD (m.hash k % m.table.length) [] := by
    have := inv_anchor_mem_bucket hm hpairE
    rwa [hkey] at this
  obtain ⟨i, hfa, hlti, hgetDi⟩ := scan_found hm.ids_nodup hm.keys_nodup
    hpairE hkey hmemE (inv_bucket_sub hm _)
  have hvict : nextOf m.elements (endAnchor none P) = some e₀ :=
    nextOf_of_mem_chainAnchors hm.ids_nodup hpairE
  have hsucc : nextOf m.elements (some e₀.id) = S.head? := by
    rw [hsplit]
    exact nextOf_split P S e₀ hPid
  have hErasePid : m.elements.eraseP (fun x => decide (x.id = e₀.id)) =
      P ++ S := by
    rw [hsplit, List.eraseP_append_right _
      (by intro b hb; simpa using hPid b hb),
      List.eraseP_cons_of_pos (by simp)]
  have hlenpos : 0 < m.table.length := hm.len_pos
  have hbir : m.hash k % m.table.length < m.table.length :=
    Nat.mod_lt _ hlenpos
  have hsizeP : m.size = P.length + S.length + 1 := by
    rw [hm.size_eq, hsplit, List.length_append, List.length_cons]
    exact (Nat.add_assoc _ _ _).symm
  have hsubl : (P ++ S).Sublist m.elements := by
    rw [hsplit]
    exact List.Sublist.append_left (List.sublist_cons_self e₀ S) P
  cases S with
  | nil =>
    have hsucc' : nextOf m.elements (some e₀.id) = none := by
      rw [hsucc]
      rfl
    have heq : erase m k = { m with
        elements := m.elements.eraseP (fun x => decide (x.id = e₀.id)),
        table := m.table.set (m.hash k % m.table.length)
          ((m.table.getD (m.hash k % m.table.length) []).eraseIdx i),
        size := m.size - 1 } := by
      simp only [erase]
      rw [hfa]
      dsimp only
      rw [hgetDi, hvict]
      dsimp only
      rw [hsucc']
    have hexpOld : ∀ b', expectedBucket m.hash m.table.length b' m.elements =
        (anchPairs none P).filterMap
            (fun p => if m.hash p.2.key % m.table.length = b'
              then some p.1 else none) ++
          ((if m.hash e₀.key % m.table.length = b'
              then [(endAnchor none P : Anchor)] else []) ++ []) := by
      intro b'
      unfold expectedBucket
      rw [hCA1, List.filterMap_append,
        show anchPairs (endAnchor none P) [e₀] =
          [((endAnchor none P : Anchor), e₀)] from rfl,
        filterMap_rule_cons, List.filterMap_nil, List.append_nil]
    have hexpNew : ∀ b', expectedBucket m.hash m.table.length b' (P ++ []) =
        (anchPairs none P).filterMap
          (fun p => if m.hash p.2.key % m.table.length = b'
            then some p.1 else none) := by
      intro b'
      unfold expectedBucket
      rw [show chainAnchors (P ++ []) = anchPairs none P by
        rw [chainAnchors, List.append_nil]]
    refine ⟨P, [], hsplit, hPne, hkey, ?_, ?_, ?_, ?_, ?_, ?_⟩
    · rw [heq]
      show m.elements.eraseP (fun x => decide (x.id = e₀.id)) = P ++ []
      exact hErasePid
    · rw [heq]
    · rw [heq]
    · rw [heq]
    · rw [heq]
      show (m.table.set (m.hash k % m.table.length)
        ((m.table.getD (m.hash k % m.table.length) []).eraseIdx i)).length =
        m.table.length
      rw [List.length_set]
    · rw [heq]
      refine ⟨?_, ?_, ?_, ?_, ?_, ?_, ?_⟩
      · show 1 ≤ (m.table.set _ _).length
        rw [List.length_set]
        exact hm.len_pos
      · show m.size - 1 =
          (m.elements.eraseP (fun x => decide (x.id = e₀.id))).length
        rw [hErasePid, List.length_append, hsizeP]
        exact Nat.add_sub_cancel _ _
      · show m.size - 1 ≤ (m.table.set _ _).length
        rw [List.length_set]
        exact Nat.le_trans (Nat.sub_le _ _) hm.load_le
      · show ((m.elements.eraseP
          (fun x => decide (x.id = e₀.id))).map (fun e => e.key)).Nodup
        rw [hErasePid]
        exact List.Nodup.sublist (List.Sublist.map _ hsubl) hm.keys_nodup
      · show ((m.elements.eraseP
          (fun x => decide (x.id = e₀.id))).map (fun e => e.id)).Nodup
        rw [hErasePid]
        exact List.Nodup.sublist (List.Sublist.map _ hsubl) hm.ids_nodup
      · show ∀ e ∈ m.elements.eraseP (fun x => decide (x.id = e₀.id)),
          e.id < m.nextId
        rw [hErasePid]
        intro e he
        exact hm.ids_lt e (hsubl.mem he)
      · intro b
        show (((m.table.set (m.hash k % m.table.length)
            ((m.table.getD (m.hash k % m.table.length) []).eraseIdx i)).getD
            b [])).Perm
          (expectedBucket m.hash
            (m.table.set (m.hash k % m.table.length)
              ((m.table.getD (m.hash k % m.table.length) []).eraseIdx
                i)).length b
            (m.elements.eraseP (fun x => decide (x.id = e₀.id))))
        rw [List.length_set, hErasePid, hexpNew b]
        by_cases hb : m.hash k % m.table.length = b
        · rw [← hb, getD_set_self _ _ _ _ hbir]
          have hold := hm.buckets (m.hash k % m.table.length)
          rw [hexpOld, hkey, if_pos rfl, List.append_nil] at hold
          have h1 := getD_perm_cons_eraseIdx
            (m.table.getD (m.hash k % m.table.length) []) i none hlti
          rw [hgetDi] at h1
          have h2 := h1.symm.trans hold
          have h3 := h2.trans (List.perm_append_singleton _ _)
          exact h3.cons_inv
        · rw [getD_set_ne _ _ _ hb]
          have hold := hm.buckets b
          rw [hexpOld, hkey, if_neg hb, List.append_nil,
            List.append_nil] at hold
          exact hold
  | cons s S' =>
    rw [List.length_cons] at hsizeP
    have hsuccS : nextOf m.elements (some e₀.id) = some s := by
      rw [hsucc]
      rfl
    have hpairS : ((some e₀.id : Anchor), s) ∈ chainAnchors m.elements := by
      rw [hCA1]
      refine List.mem_append.mpr (Or.inr ?_)
      rw [show anchPairs (endAnchor none P) (e₀ :: s :: S') =
        ((endAnchor none P : Anchor), e₀) :: ((some e₀.id : Anchor), s) ::
          anchPairs (some s.id) S' from rfl]
      exact List.mem_cons_of_mem _ (List.mem_cons_self _ _)
    have hmemS : (some e₀.id : Anchor) ∈
        m.table.getD (m.hash s.key % m.table.length) [] :=
      inv_anchor_mem_bucket hm hpairS
    obtain ⟨j, hfaj, hltj, hgetDj⟩ := scan_found hm.ids_nodup hm.keys_nodup
      hpairS rfl hmemS (inv_bucket_sub hm _)
    have htir : m.hash s.key % m.table.length < m.table.length :=
      Nat.mod_lt _ hlenpos
    have hne_aP : (endAnchor none P : Anchor) ≠ some e₀.id := by
      intro hEq
      rw [hEq, hsuccS] at hvict
      have hes : e₀ = s := (Option.some.inj hvict).symm
      have hnd := hm.ids_nodup
      rw [hsplit, List.map_append, List.map_cons, List.map_cons] at hnd
      rcases List.nodup_append.mp hnd with ⟨_, hnd2, _⟩
      rcases List.nodup_cons.mp hnd2 with ⟨hnotin, _⟩
      exact hnotin (by rw [hes]; exact List.mem_cons_self _ _)
    have heq : erase m k = { m with
        elements := m.elements.eraseP (fun x => decide (x.id = e₀.id)),
        table := (m.table.set (m.hash s.key % m.table.length)
            ((m.table.getD (m.hash s.key % m.table.length) []).set j
              (endAnchor none P))).set (m.hash k % m.table.length)
          (((m.table.set (m.hash s.key % m.table.length)
              ((m.table.getD (m.hash s.key % m.table.length) []).set j
                (endAnchor none P))).getD
            (m.hash k % m.table.length) []).eraseIdx i),
        size := m.size - 1 } := by
      simp only [erase]
      rw [hfa]
      dsimp only
      rw [hgetDi, hvict]
      dsimp only
      rw [hsuccS]
      dsimp only
      rw [hfaj]
    have ht1get : ∀ b', ((m.table.set (m.hash s.key % m.table.length)
        ((m.table.getD (m.hash s.key % m.table.length) []).set j
          (endAnchor none P))).getD b' []) =
        if m.hash s.key % m.table.length = b'
          then (m.table.getD (m.hash s.key % m.table.length) []).set j
            (endAnchor none P)
          else m.table.getD b' [] := by
      intro b'
      by_cases hb' : m.hash s.key % m.table.length = b'
      · rw [if_pos hb', ← hb', getD_set_self _ _ _ _ htir]
      · rw [if_neg hb', getD_set_ne _ _ _ hb']
    have hexpOld : ∀ b', expectedBucket m.hash m.table.length b' m.elements =
        (anchPairs none P).filterMap
            (fun p => if m.hash p.2.key % m.table.length = b'
              then some p.1 else none) ++
          ((if m.hash e₀.key % m.table.length = b'
              then [(endAnchor none P : Anchor)] else []) ++
            ((if m.hash s.key % m.table.length = b'
                then [(some e₀.id : Anchor)] else []) ++
              (anchPairs (some s.id) S').filterMap
                (fun p => if m.hash p.2.key % m.table.length = b'
                  then some p.1 else none))) := by
      intro b'
      unfold expectedBucket
      rw [hCA1, List.filterMap_append,
        show anchPairs (endAnchor none P) (e₀ :: s :: S') =
          ((endAnchor none P : Anchor), e₀) :: ((some e₀.id : Anchor), s) ::
            anchPairs (some s.id) S' from rfl,
        filterMap_rule_cons, filterMap_rule_cons]
    have hexpNew : ∀ b',
        expectedBucket m.hash m.table.length b' (P ++ s :: S') =
        (anchPairs none P).filterMap
            (fun p => if m.hash p.2.key % m.table.length = b'
              then some p.1 else none) ++
          ((if m.hash s.key % m.table.length = b'
              then [(endAnchor none P : Anchor)] else []) ++
            (anchPairs (some s.id) S').filterMap
              (fun p => if m.hash p.2.key % m.table.length = b'
                then some p.1 else none)) := by
      intro b'
      unfold expectedBucket
      rw [show chainAnchors (P ++ s :: S') =
          anchPairs none P ++ anchPairs (endAnchor none P) (s :: S') from by
        rw [chainAnchors, anchPairs_append],
        List.filterMap_append,
        show anchPairs (endAnchor none P) (s :: S') =
          ((endAnchor none P : Anchor), s) :: anchPairs (some s.id) S'
          from rfl,
        filterMap_rule_cons]
    have helms2 : (erase m k).elements = P ++ s :: S' := by
      rw [heq]
      exact hErasePid
    have hhash2 : (erase m k).hash = m.hash := by rw [heq]
    have hsize2 : (erase m k).size = m.size - 1 := by rw [heq]
    have hnid2 : (erase m k).nextId = m.nextId := by rw [heq]
    have htbl2 : (erase m k).table =
        (m.table.set (m.hash s.key % m.table.length)
            ((m.table.getD (m.hash s.key % m.table.length) []).set j
              (endAnchor none P))).set (m.hash k % m.table.length)
          (((m.table.set (m.hash s.key % m.table.length)
              ((m.table.getD (m.hash s.key % m.table.length) []).set j
                (endAnchor none P))).getD
            (m.hash k % m.table.length) []).eraseIdx i) := by
      rw [heq]
    have hlen2 : (erase m k).table.length = m.table.length := by
      rw [htbl2, List.length_set, List.length_set]
    refine ⟨P, s :: S', hsplit, hPne, hkey, helms2, hsize2, hhash2, hnid2,
      hlen2, ?_, ?_, ?_, ?_, ?_, ?_, ?_⟩
    · rw [hlen2]
      exact hm.len_pos
    · rw [hsize2, helms2, List.length_append, List.length_cons, hsizeP]
      exact Nat.add_sub_cancel _ _
    · rw [hsize2, hlen2]
      exact Nat.le_trans (Nat.sub_le _ _) hm.load_le
    · rw [helms2]
      exact List.Nodup.sublist (List.Sublist.map _ hsubl) hm.keys_nodup
    · rw [helms2]
      exact List.Nodup.sublist (List.Sublist.map _ hsubl) hm.ids_nodup
    · rw [helms2, hnid2]
      intro e he
      exact hm.ids_lt e (hsubl.mem he)
    · intro b
      rw [hhash2, hlen2, helms2, htbl2, hexpNew b]
      by_cases hb1 : m.hash k % m.table.length = b
      · rw [hb1, getD_set_self _ _ _ _ (by
          rw [List.length_set]
          exact hb1 ▸ hbir), ht1get b]
        by_cases hb2 : m.hash s.key % m.table.length = b
        · rw [if_pos hb2, if_pos hb2,
            show m.table.getD (m.hash s.key % m.table.length) [] =
              m.table.getD b [] from by rw [hb2]]
          have hgetDi' : (m.table.getD b []).getD i none =
              endAnchor none P := by
            rw [← hb1]
            exact hgetDi
          have hlti' : i < (m.table.getD b []).length := by
            rw [← hb1]
            exact hlti
          have hgetDj' : (m.table.getD b []).getD j none = some e₀.id := by
            rw [← hb2]
            exact hgetDj
          have hltj' : j < (m.table.getD b []).length := by
            rw [← hb2]
            exact hltj
          have hij : j ≠ i := by
            intro hji
            rw [hji, hgetDi'] at hgetDj'
            exact hne_aP hgetDj'
          have hBi : ((m.table.getD b []).set j
              (endAnchor none P)).getD i none = endAnchor none P := by
            rw [getD_set_ne _ _ _ hij, hgetDi']
          have hBlen : i < ((m.table.getD b []).set j
              (endAnchor none P)).length := by
            rw [List.length_set]
            exact hlti'
          have p1 := getD_perm_cons_eraseIdx
            ((m.table.getD b []).set j (endAnchor none P)) i none hBlen
          rw [hBi] at p1
          have p2 := set_perm_cons_eraseIdx (m.table.getD b []) j
            (endAnchor none P) hltj'
          have pBE := (p1.symm.trans p2).cons_inv
          have p3 := getD_perm_cons_eraseIdx (m.table.getD b []) j none hltj'
          rw [hgetDj'] at p3
          have p4 := hm.buckets b
          rw [hexpOld b, hkey, if_pos hb1, if_pos hb2] at p4
          have p5 := ((p3.symm.trans p4).trans
            (perm_pull_mid _ _ _ _)).cons_inv
          exact pBE.trans p5
        · rw [if_neg hb2, if_neg hb2, List.nil_append]
          have hgetDi' : (m.table.getD b []).getD i none =
              endAnchor none P := by
            rw [← hb1]
            exact hgetDi
          have hlti' : i < (m.table.getD b []).length := by
            rw [← hb1]
            exact hlti
          have p1 := getD_perm_cons_eraseIdx (m.table.getD b []) i none hlti'
          rw [hgetDi'] at p1
          have p4 := hm.buckets b
          rw [hexpOld b, hkey, if_pos hb1, if_neg hb2,
            List.nil_append] at p4
          exact ((p1.symm.trans p4).trans List.perm_middle).cons_inv
      · rw [getD_set_ne _ _ _ hb1, ht1get b]
        by_cases hb2 : m.hash s.key % m.table.length = b
        · rw [if_pos hb2, if_pos hb2,
            show m.table.getD (m.hash s.key % m.table.length) [] =
              m.table.getD b [] from by rw [hb2]]
          have hgetDj' : (m.table.getD b []).getD j none = some e₀.id := by
            rw [← hb2]
            exact hgetDj
          have hltj' : j < (m.table.getD b []).length := by
            rw [← hb2]
            exact hltj
          have p3 := getD_perm_cons_eraseIdx (m.table.getD b []) j none hltj'
          rw [hgetDj'] at p3
          have p4 := hm.buckets b
          rw [hexpOld b, hkey, if_neg hb1, if_pos hb2,
            List.nil_append] at p4
          have p6 := set_perm_cons_eraseIdx (m.table.getD b []) j
            (endAnchor none P) hltj'
          have p7 := ((p3.symm.trans p4).trans List.perm_middle).cons_inv
          exact p6.trans ((p7.cons _).trans List.perm_middle.symm)
        · rw [if_neg hb2, if_neg hb2, List.nil_append]
          have p4 := hm.buckets b
          rw [hexpOld b, hkey, if_neg hb1, if_neg hb2, List.nil_append,
            List.nil_append] at p4
          exact p4

/-! Characterization of operator[] and reachability. -/

theorem find_some_elim {m : UnorderedMap K V} {k : K} {e₀ : Entry K V}
    (h : find m k = some e₀) :
    ∃ i, findAnchorIdx m.elements k
        (m.table.getD (m.hash k % m.table.length) []) = some i ∧
      nextOf m.elements
        ((m.table.getD (m.hash k % m.table.length) []).getD i none) =
        some e₀ := by
  simp only [find] at h
  cases hfa : findAnchorIdx m.elements k
      (m.table.getD (m.hash k % m.table.length) []) with
  | none =>
    rw [hfa] at h
    exact absurd h (by simp)
  | some i =>
    rw [hfa] at h
    exact ⟨i, rfl, h⟩

theorem findAnchorIdx_none_of_absent {m : UnorderedMap K V} (hm : Inv m)
    {k : K} (hnone : find m k = none) :
    findAnchorIdx m.elements k
      (m.table.getD (m.hash k % m.table.length) []) = none :=
  scan_none hm.ids_nodup ((find_eq_none_iff hm k).mp hnone)
    (inv_bucket_sub hm _)

theorem opIndex_of_find_some [Inhabited V] {m : UnorderedMap K V}
    {k : K} {e₀ : Entry K V} (h : find m k = some e₀) :
    opIndex m k = (m, e₀.val) := by
  obtain ⟨i, hfa, hnext⟩ := find_some_elim h
  simp only [opIndex]
  rw [hfa]
  dsimp only
  rw [hnext]
  rfl

theorem opIndex_of_find_none [Inhabited V] {m : UnorderedMap K V}
    (hm : Inv m) {k : K} (hnone : find m k = none) :
    opIndex m k = (insert m k default, default) := by
  simp only [opIndex]
  rw [findAnchorIdx_none_of_absent hm hnone]
  dsimp only
  have hcomp := insert_components (m := m) (k := k) default hnone
  rw [hcomp.1]
  rfl

theorem inv_foldInsert {d : UnorderedMap K V} (hd : Inv d)
    (l : List (Entry K V)) :
    Inv (l.foldl (fun d e => insert d e.key e.val) d) := by
  induction l generalizing d with
  | nil => exact hd
  | cons e l ih =>
    rw [List.foldl_cons]
    exact ih (inv_insert hd e.key e.val)

theorem inv_copyAssignBody {dst : UnorderedMap K V} (hdst : Inv dst)
    (src : UnorderedMap K V) : Inv (copyAssignBody dst src) :=
  inv_foldInsert (inv_clear hdst) src.elements

/-- Every reachable state satisfies the class invariant. -/
theorem reach_inv {m : UnorderedMap K V} (h : Reach m) : Inv m := by
  induction h with
  | init hash => exact inv_empty hash
  | insert k v _ ih => exact inv_insert ih k v
  | erase k _ ih =>
    rename_i m' _
    cases hf : find m' k with
    | none =>
      rw [erase_of_find_none ih hf]
      exact ih
    | some e₀ =>
      obtain ⟨P, S, _, _, _, _, _, _, _, _, hinv⟩ := erase_found_spec ih hf
      exact hinv
  | opIndex k _ ih =>
    rename_i m' _
    cases hf : find m' k with
    | none =>
      rw [opIndex_of_find_none ih hf]
      exact inv_insert ih k default
    | some e₀ =>
      rw [opIndex_of_find_some hf]
      exact ih
  | clear _ ih => exact inv_clear ih
  | assign _ _ ih _ => exact inv_copyAssignBody ih _

/-! Key/value level lookup lemmas. -/

theorem find?_keyval (l : List (Entry K V)) (k : K) :
    (l.find? (fun e => decide (e.key = k))).map (fun e => (e.key, e.val)) =
      (l.map (fun e => (e.key, e.val))).find? (fun q => decide (q.1 = k)) := by
  induction l with
  | nil => rfl
  | cons e l ih =>
    by_cases he : e.key = k
    · rw [List.find?_cons_of_pos _ (by simpa using he), List.map_cons,
        List.find?_cons_of_pos _ (by simpa using he)]
      rfl
    · rw [List.find?_cons_of_neg _ (by simpa using he), List.map_cons,
        List.find?_cons_of_neg _ (by simpa using he), ih]

theorem find?_key_unique {qs : List (K × V)} (h : (qs.map Prod.fst).Nodup)
    {k : K} {q : K × V} :
    qs.find? (fun q => decide (q.1 = k)) = some q ↔ q ∈ qs ∧ q.1 = k := by
  constructor
  · intro hf
    refine ⟨List.mem_of_find?_eq_some hf, ?_⟩
    have := List.find?_some hf
    simpa using this
  · rintro ⟨hmem, hk⟩
    induction qs with
    | nil => simp at hmem
    | cons q0 qs' ih =>
      have h' : (q0.1 :: qs'.map Prod.fst).Nodup := by simpa using h
      rcases List.nodup_cons.mp h' with ⟨hnotin, htail⟩
      by_cases h0 : q0.1 = k
      · rw [List.find?_cons_of_pos _ (by simpa using h0)]
        rcases List.mem_cons.mp hmem with rfl | hmem'
        · rfl
        · exfalso
          apply hnotin
          rw [h0, ← hk]
          exact List.mem_map_of_mem Prod.fst hmem'
      · rw [List.find?_cons_of_neg _ (by simpa using h0)]
        rcases List.mem_cons.mp hmem with rfl | hmem'
        · exact absurd hk h0
        · exact ih htail hmem'

theorem find?_key_none {qs : List (K × V)} {k : K} :
    qs.find? (fun q => decide (q.1 = k)) = none ↔
      ∀ q ∈ qs, q.1 ≠ k := by
  rw [List.find?_eq_none]
  simp

theorem find?_key_reverse {qs : List (K × V)} (h : (qs.map Prod.fst).Nodup)
    (k : K) :
    qs.reverse.find? (fun q => decide (q.1 = k)) =
      qs.find? (fun q => decide (q.1 = k)) := by
  have hrev : (qs.reverse.map Prod.fst).Nodup := by
    rw [List.map_reverse]
    exact List.nodup_reverse.mpr h
  cases hq : qs.find? (fun q => decide (q.1 = k)) with
  | none =>
    rw [find?_key_none.mpr]
    intro q hmem
    exact find?_key_none.mp hq q (List.mem_reverse.mp hmem)
  | some q =>
    rcases (find?_key_unique h).mp hq with ⟨hmem, hk⟩
    exact (find?_key_unique hrev).mpr ⟨List.mem_reverse.mpr hmem, hk⟩

theorem foldl_insert_entries (l : List (Entry K V)) (d : UnorderedMap K V) :
    l.foldl (fun d e => insert d e.key e.val) d =
      insertList d (l.map (fun e => (e.key, e.val))) := by
  induction l generalizing d with
  | nil => rfl
  | cons e l ih =>
    rw [List.foldl_cons, ih]
    rfl

theorem find_pairs {m : UnorderedMap K V} (hm : Inv m) (k : K) :
    (find m k).map (fun e => (e.key, e.val)) =
      (m.elements.map (fun e => (e.key, e.val))).find?
        (fun q => decide (q.1 = k)) := by
  rw [find_eq_find? hm, find?_keyval]

/-- Inserting a batch of pairs with fresh, pairwise distinct keys
prepends them, in reverse order, to the chain. -/
theorem insertList_spec {m : UnorderedMap K V} (hm : Inv m)
    (ps : List (K × V)) (hnd : (ps.map Prod.fst).Nodup)
    (hdisj : ∀ p ∈ ps, ∀ e ∈ m.elements, e.key ≠ p.1) :
    Inv (insertList m ps) ∧
      (insertList m ps).elements.map (fun e => (e.key, e.val)) =
        ps.reverse ++ m.elements.map (fun e => (e.key, e.val)) ∧
      (insertList m ps).size = m.size + ps.length ∧
      (insertList m ps).hash = m.hash := by
  induction ps generalizing m with
  | nil => exact ⟨hm, rfl, rfl, rfl⟩
  | cons p ps' ih =>
    obtain ⟨k, v⟩ := p
    have hnone : find m k = none := by
      rw [find_eq_none_iff hm]
      intro e he
      exact hdisj (k, v) (List.mem_cons_self _ _) e he
    have hcomp := insert_components (m := m) (k := k) v hnone
    have hm' := inv_insert hm k v
    have hnd0 : (k :: ps'.map Prod.fst).Nodup := by simpa using hnd
    have hnd' : (ps'.map Prod.fst).Nodup := (List.nodup_cons.mp hnd0).2
    have hknotin : k ∉ ps'.map Prod.fst := (List.nodup_cons.mp hnd0).1
    have hdisj' : ∀ p ∈ ps', ∀ e ∈ (insert m k v).elements, e.key ≠ p.1 := by
      intro p hp e he
      rw [hcomp.1] at he
      rcases List.mem_cons.mp he with rfl | he'
      · intro hkp
        have hkp' : k = p.1 := hkp
        exact hknotin (hkp' ▸ List.mem_map_of_mem Prod.fst hp)
      · exact hdisj p (List.mem_cons_of_mem _ hp) e he'
    obtain ⟨hInv, hpairs, hsize, hhash⟩ := ih hm' hnd' hdisj'
    refine ⟨hInv, ?_, ?_, ?_⟩
    · show (insertList (insert m k v) ps').elements.map
        (fun e => (e.key, e.val)) =
        ((k, v) :: ps').reverse ++ m.elements.map (fun e => (e.key, e.val))
      rw [hpairs, hcomp.1]
      simp [List.reverse_cons, List.append_assoc]
    · show (insertList (insert m k v) ps').size = m.size + ((k, v) :: ps').length
      rw [hsize, hcomp.2.1, List.length_cons, Nat.add_assoc, Nat.add_comm 1]
    · show (insertList (insert m k v) ps').hash = m.hash
      rw [hhash, hcomp.2.2.2.1]

theorem keys_of_pairs (l : List (Entry K V)) :
    (l.map (fun e => (e.key, e.val))).map Prod.fst =
      l.map (fun e => e.key) := by
  rw [List.map_map]
  rfl

/-! Counting anchors, for the global invariant claim. -/

theorem countP_filterMap_rule (hash : K → Nat) (len b : Nat)
    (q : Anchor → Bool) (L : List (Anchor × Entry K V)) :
    ((L.filterMap (fun p => if hash p.2.key % len = b
        then some p.1 else none)).countP q) =
      L.countP (fun p => q p.1 && decide (hash p.2.key % len = b)) := by
  induction L with
  | nil => rfl
  | cons p L ih =>
    obtain ⟨a, e⟩ := p
    rw [filterMap_rule_cons]
    by_cases hc : hash e.key % len = b
    · rw [if_pos hc, List.singleton_append, List.countP_cons, ih,
        List.countP_cons]
      simp [hc]
    · rw [if_neg hc, List.nil_append, ih, List.countP_cons]
      simp [hc]

theorem countP_eq_one_of_nodup [DecidableEq V] {l : List (Entry K V)}
    (hnd : l.Nodup) {e : Entry K V} (he : e ∈ l) :
    l.countP (fun x => decide (x = e)) = 1 := by
  induction l with
  | nil => simp at he
  | cons x l ih =>
    rcases List.nodup_cons.mp hnd with ⟨hx, hl⟩
    rcases List.mem_cons.mp he with rfl | he'
    · have h0 : l.countP (fun y => decide (y = e)) = 0 := by
        rw [List.countP_eq_zero]
        intro a ha
        simp only [decide_eq_true_eq]
        intro haa
        exact hx (haa ▸ ha)
      rw [List.countP_cons, h0, if_pos (by simp)]
    · have hxe : ¬(x = e) := by
        intro hxe
        exact hx (hxe ▸ he')
      rw [List.countP_cons, ih hl he', if_neg (by simpa using hxe)]

theorem bucket_countP_eq [DecidableEq V] {m : UnorderedMap K V} (hm : Inv m)
    {e : Entry K V} (he : e ∈ m.elements) (b : Nat) :
    ((m.table.getD b []).countP
      (fun a => decide (nextOf m.elements a = some e))) =
      if m.hash e.key % m.table.length = b then 1 else 0 := by
  rw [(hm.buckets b).countP_eq]
  unfold expectedBucket
  rw [countP_filterMap_rule]
  have hpt : ∀ p ∈ chainAnchors m.elements,
      ((decide (nextOf m.elements p.1 = some e) &&
          decide (m.hash p.2.key % m.table.length = b)) = true ↔
        (decide (p.2 = e) &&
          decide (m.hash p.2.key % m.table.length = b)) = true) := by
    intro p hp
    have hnx : nextOf m.elements p.1 = some p.2 := by
      obtain ⟨a, e'⟩ := p
      exact nextOf_of_mem_chainAnchors hm.ids_nodup hp
    rw [hnx]
    simp
  rw [List.countP_congr hpt]
  by_cases hb : m.hash e.key % m.table.length = b
  · rw [if_pos hb]
    have hpt2 : ∀ p ∈ chainAnchors m.elements,
        ((decide (p.2 = e) &&
            decide (m.hash p.2.key % m.table.length = b)) = true ↔
          decide (p.2 = e) = true) := by
      intro p hp
      simp only [Bool.and_eq_true, decide_eq_true_eq]
      constructor
      · rintro ⟨h1, _⟩
        exact h1
      · intro h1
        exact ⟨h1, by rw [h1]; exact hb⟩
    rw [List.countP_congr hpt2]
    have h2 := List.countP_map (fun x : Entry K V => decide (x = e))
      Prod.snd (chainAnchors m.elements)
    rw [chainAnchors_map_snd] at h2
    exact (h2.symm.trans
      (countP_eq_one_of_nodup (List.Nodup.of_map _ hm.ids_nodup) he))
  · rw [if_neg hb, List.countP_eq_zero]
    intro p hp
    simp only [Bool.and_eq_true, decide_eq_true_eq]
    rintro ⟨h1, h2⟩
    exact hb (h1 ▸ h2)

theorem bucket_count_none {m : UnorderedMap K V} (hm : Inv m)
    {f : Entry K V} (hf : m.elements.head? = some f) :
    (m.table.getD (m.hash f.key % m.table.length) []).count none = 1 := by
  obtain ⟨rest, hrest⟩ := List.head?_eq_some_iff.mp hf
  rw [List.count_eq_countP, (hm.buckets _).countP_eq]
  unfold expectedBucket
  rw [countP_filterMap_rule, hrest,
    show chainAnchors (f :: rest) =
      ((none : Anchor), f) :: anchPairs (some f.id) rest from rfl,
    List.countP_cons]
  have hz : (anchPairs (some f.id) rest).countP
      (fun p => (p.1 == (none : Anchor)) &&
        decide (m.hash p.2.key % m.table.length =
          m.hash f.key % m.table.length)) = 0 := by
    rw [List.countP_eq_zero]
    intro p hp
    obtain ⟨a, e'⟩ := p
    rcases anchPairs_fst_mem hp with h1 | ⟨d, _, h1⟩ <;>
      simp [h1]
  rw [hz]
  simp

/-- C1: in every state reachable from a freshly constructed map by
insert, erase, operator[], clear and copy-assignment, each stored
element has exactly one anchor, located in the bucket at index
hash(key) mod bucketCount — an anchor such that the position one step
after it is exactly that element — no anchor for it occurs in any other
bucket, and the bucket of the front element holds the before-first
sentinel anchor exactly once. -/
theorem claim_c1 [DecidableEq V] {m : UnorderedMap K V} (h : Reach m) :
    (∀ e ∈ m.elements,
      ((m.table.getD (m.hash e.key % m.table.length) []).countP
        (fun a => decide (nextOf m.elements a = some e))) = 1 ∧
      ∀ b, b ≠ m.hash e.key % m.table.length →
        ((m.table.getD b []).countP
          (fun a => decide (nextOf m.elements a = some e))) = 0) ∧
    ∀ f, m.elements.head? = some f →
      (m.table.getD (m.hash f.key % m.table.length) []).count none = 1 := by
  have hm := reach_inv h
  refine ⟨?_, ?_⟩
  · intro e he
    constructor
    · rw [bucket_countP_eq hm he, if_pos rfl]
    · intro b hb
      rw [bucket_countP_eq hm he, if_neg (fun hh => hb hh.symm)]
  · intro f hf
    exact bucket_count_none hm hf

/-- C2: ReHash leaves the element chain and the size unchanged, doubles
the bucket count, afterwards every element's anchor sits — with
identical anchor value — in bucket hash(key) mod newBucketCount (the
Perm against the prescribed contents), and the old buckets are only ever
thinned, so anchors that stay keep their position (the Sublist). -/
theorem claim_c2 {m : UnorderedMap K V} (hm : Inv m) :
    (ReHash m).elements = m.elements ∧
    (ReHash m).size = m.size ∧
    (ReHash m).table.length = 2 * m.table.length ∧
    (∀ b, ((ReHash m).table.getD b []).Perm
      (expectedBucket m.hash (2 * m.table.length) b m.elements)) ∧
    (∀ b, b < m.table.length →
      ((ReHash m).table.getD b []).Sublist (m.table.getD b [])) := by
  obtain ⟨h1, h2⟩ := ReHash_main hm.len_pos
    hm.ids_nodup hm.keys_nodup hm.buckets
  exact ⟨rfl, rfl, ReHash_table_length m, h1, h2⟩

/-- C3: inserting an already-present key is a no-op on the whole state,
and in particular after insert (k, v1) then insert (k, v2) on a map
without k, at k still returns v1: the first value wins. -/
theorem claim_c3 {m : UnorderedMap K V} (hm : Inv m) (k : K) (v₁ v₂ : V) :
    (∀ e, find m k = some e → insert m k v₁ = m) ∧
    (find m k = none →
      atVal (insert (insert m k v₁) k v₂) k = some v₁) := by
  constructor
  · intro e he
    exact insert_of_find_isSome v₁ (by rw [he]; rfl)
  · intro hnone
    have hcomp := insert_components (m := m) (k := k) v₁ hnone
    have hm' := inv_insert hm k v₁
    have hfind' : find (insert m k v₁) k = some ⟨m.nextId, k, v₁⟩ := by
      rw [find_eq_find? hm', hcomp.1]
      rw [List.find?_cons_of_pos _ (by simp)]
    rw [insert_of_find_isSome v₂ (by rw [hfind']; rfl),
      atVal_eq_find, hfind']
    rfl

/-- C4: after erase k, find k fails; erasing an absent key is a no-op on
the whole state; erasing a present key decreases the size by exactly one
and leaves the find result of every other key — entry identity, key and
value included — unchanged. -/
theorem claim_c4 {m : UnorderedMap K V} (hm : Inv m) (k : K) :
    find (erase m k) k = none ∧
    (find m k = none → erase m k = m) ∧
    (∀ e, find m k = some e →
      m.size = (erase m k).size + 1 ∧
      ∀ k', k' ≠ k → find (erase m k) k' = find m k') := by
  refine ⟨?_, fun hnone => erase_of_find_none hm hnone, ?_⟩
  · cases hf : find m k with
    | none =>
      rw [erase_of_find_none hm hf]
      exact hf
    | some e =>
      obtain ⟨P, S, hsplit, hPne, hkey, helms, _, _, _, _, hInv⟩ :=
        erase_found_spec hm hf
      rw [find_eq_none_iff hInv k, helms]
      intro x hx
      rcases List.mem_append.mp hx with hxP | hxS
      · exact hPne x hxP
      · intro hxk
        have hxmem : x ∈ m.elements := by
          rw [hsplit]
          exact List.mem_append.mpr
            (Or.inr (List.mem_cons_of_mem _ hxS))
        have hemem : e ∈ m.elements := (find_mem_and_key hm hf).1
        have hxe : x = e := List.inj_on_of_nodup_map hm.keys_nodup
          hxmem hemem (by rw [hxk, hkey])
        subst hxe
        have hnd := hm.ids_nodup
        rw [hsplit, List.map_append, List.map_cons] at hnd
        rcases List.nodup_append.mp hnd with ⟨_, hnd2, _⟩
        rcases List.nodup_cons.mp hnd2 with ⟨hnotin, _⟩
        exact hnotin (List.mem_map_of_mem _ hxS)
  · intro e hf
    obtain ⟨P, S, hsplit, hPne, hkey, helms, hsize, _, _, _, hInv⟩ :=
      erase_found_spec hm hf
    have hszpos : m.size = P.length + S.length + 1 := by
      rw [hm.size_eq, hsplit, List.length_append, List.length_cons]
      exact (Nat.add_assoc _ _ _).symm
    refine ⟨by rw [hsize, hszpos, Nat.add_sub_cancel], ?_⟩
    intro k' hk'
    rw [find_eq_find? hInv, helms, find_eq_find? hm, hsplit,
      List.find?_append, List.find?_append,
      List.find?_cons_of_neg _ (by
        simp only [decide_eq_true_eq]
        rw [hkey]
        exact fun hh => hk' hh.symm)]

/-- C5: for an absent key, at fails with the KeyNotFound condition
(modelled as none) and, being a read-only scan, touches no state, while
operator[] inserts a default-constructed value, returns that default,
increments the size by one, and find then succeeds on that key with the
default value; for a present key at returns the stored value. -/
theorem claim_c5 [Inhabited V] {m : UnorderedMap K V} (hm : Inv m) (k : K) :
    (find m k = none →
      atVal m k = none ∧
      (opIndex m k).2 = default ∧
      (opIndex m k).1.size = m.size + 1 ∧
      (find (opIndex m k).1 k).map (fun e => (e.key, e.val)) =
        some (k, (default : V))) ∧
    (∀ e, find m k = some e → atVal m k = some e.val) := by
  constructor
  · intro hnone
    have hop := opIndex_of_find_none hm hnone
    have hcomp := insert_components (m := m) (k := k) (default : V) hnone
    have hm' := inv_insert hm k (default : V)
    have hfind' : find (insert m k default) k =
        some ⟨m.nextId, k, default⟩ := by
      rw [find_eq_find? hm', hcomp.1, List.find?_cons_of_pos _ (by simp)]
    refine ⟨?_, ?_, ?_, ?_⟩
    · rw [atVal_eq_find, hnone]
      rfl
    · rw [hop]
    · rw [hop]
      exact hcomp.2.1
    · rw [hop]
      show (find (insert m k default) k).map _ = _
      rw [hfind']
      rfl
  · intro e he
    rw [atVal_eq_find, he]
    rfl

/-- C6: a fresh map has exactly one bucket, every reachable state has at
least one, after every insert the load factor stays at most one, a
rehash — doubling the bucket count — happens on insert exactly when the
incremented size would exceed the bucket count (and never on an insert
of a present key, which changes nothing), and erase and clear leave the
bucket count untouched. -/
theorem claim_c6 (hash : K → Nat) {m : UnorderedMap K V} (h : Reach m)
    (k : K) (v : V) :
    (emptyMap (V := V) hash).table.length = 1 ∧
    1 ≤ m.table.length ∧
    (insert m k v).size ≤ (insert m k v).table.length ∧
    (find m k = none →
      (insert m k v).table.length =
        if m.table.length < m.size + 1 then 2 * m.table.length
        else m.table.length) ∧
    ((find m k).isSome → insert m k v = m) ∧
    (erase m k).table.length = m.table.length ∧
    (clear m).table.length = m.table.length := by
  have hm := reach_inv h
  refine ⟨rfl, hm.len_pos, (inv_insert hm k v).load_le,
    fun hnone => (insert_components v hnone).2.2.2.2,
    fun hs => insert_of_find_isSome v hs, ?_, clear_table_length m⟩
  cases hf : find m k with
  | none => rw [erase_of_find_none hm hf]
  | some e =>
    obtain ⟨P, S, _, _, _, _, _, _, _, hlen, _⟩ := erase_found_spec hm hf
    exact hlen

/-- C7: inserting N pairs with pairwise distinct keys into a fresh map
gives size N, find succeeds on every inserted pair with its value, and
iterating the chain yields exactly the N pairs in reverse insertion
order. -/
theorem claim_c7 (hash : K → Nat) (ps : List (K × V))
    (hnd : (ps.map Prod.fst).Nodup) :
    (insertList (emptyMap hash) ps).size = ps.length ∧
    (∀ p ∈ ps, (find (insertList (emptyMap hash) ps) p.1).map
      (fun e => (e.key, e.val)) = some p) ∧
    (insertList (emptyMap hash) ps).elements.map
      (fun e => (e.key, e.val)) = ps.reverse := by
  obtain ⟨hInv, hpairs, hsize, _⟩ := insertList_spec (inv_empty hash) ps hnd
    (by intro p hp e he; simp [emptyMap] at he)
  have hpairs' : (insertList (emptyMap hash) ps).elements.map
      (fun e => (e.key, e.val)) = ps.reverse := by
    rw [hpairs]
    simp [emptyMap]
  refine ⟨by rw [hsize]; simp [emptyMap], ?_, hpairs'⟩
  intro p hp
  rw [find_pairs hInv p.1, hpairs', find?_key_reverse hnd p.1]
  exact (find?_key_unique hnd).mpr ⟨hp, rfl⟩

/-- C8: after clear the size is zero, the map is empty, find fails on
every key, every bucket list is empty, and the bucket count is exactly
what it was before the call. -/
theorem claim_c8 {m : UnorderedMap K V} (hm : Inv m) :
    (clear m).size = 0 ∧
    emptyB (clear m) = true ∧
    (∀ k, find (clear m) k = none) ∧
    (∀ b, (clear m).table.getD b [] = []) ∧
    (clear m).table.length = m.table.length := by
  refine ⟨rfl, rfl, ?_, clear_buckets hm, clear_table_length m⟩
  intro k
  rw [find_eq_none_iff (inv_clear hm)]
  intro e he
  rw [clear_elements] at he
  simp at he

/-- C9: the copy-assignment body gives the destination exactly the
source's key/value pairs: the sizes agree and find (hence at) agrees on
every key.  In this embedding a map is an immutable value, so the copy
shares no state with the source by construction; the substance of the
claim is this agreement of contents. -/
theorem claim_c9 {dst src : UnorderedMap K V} (hdst : Inv dst)
    (hsrc : Inv src) :
    (copyAssignBody dst src).size = src.size ∧
    (∀ k, (find (copyAssignBody dst src) k).map (fun e => (e.key, e.val)) =
      (find src k).map (fun e => (e.key, e.val))) ∧
    (∀ k, atVal (copyAssignBody dst src) k = atVal src k) := by
  have hbody : copyAssignBody dst src =
      insertList (clear dst) (src.elements.map (fun e => (e.key, e.val))) :=
    foldl_insert_entries src.elements (clear dst)
  have hnd : ((src.elements.map (fun e => (e.key, e.val))).map
      Prod.fst).Nodup := by
    rw [keys_of_pairs]
    exact hsrc.keys_nodup
  obtain ⟨hInv, hpairs, hsize, _⟩ := insertList_spec (inv_clear hdst)
    (src.elements.map (fun e => (e.key, e.val))) hnd
    (by intro p hp e he; rw [clear_elements] at he; simp at he)
  have hInv' : Inv (copyAssignBody dst src) := by
    rw [hbody]
    exact hInv
  have hpairs' : (copyAssignBody dst src).elements.map
      (fun e => (e.key, e.val)) =
      (src.elements.map (fun e => (e.key, e.val))).reverse := by
    rw [hbody, hpairs, clear_elements]
    simp
  have hfind : ∀ k, (find (copyAssignBody dst src) k).map
      (fun e => (e.key, e.val)) =
      (find src k).map (fun e => (e.key, e.val)) := by
    intro k
    rw [find_pairs hInv' k, hpairs', find?_key_reverse hnd k,
      ← find_pairs hsrc k]
  refine ⟨?_, hfind, ?_⟩
  · rw [hbody, hsize, clear_size, List.length_map, ← hsrc.size_eq]
    exact Nat.zero_add _
  · intro k
    rw [atVal_eq_find, atVal_eq_find]
    have h2 := congrArg (fun o => o.map Prod.snd) (hfind k)
    simpa [Option.map_map, Function.comp] using h2

/-- C10: self-assignment returns the map unchanged, because the
operator's this == &other guard short-circuits; had the
clear-then-reinsert body run on an aliased source it would have cleared
the map, since after the clear the shared chain is empty and the
reinsertion loop has nothing to copy. -/
theorem claim_c10 (m : UnorderedMap K V) :
    opAssign true m m = m ∧ selfAssignBody m = clear m :=
  ⟨rfl, rfl⟩

/-! Concrete witness states. -/

theorem reachW : Reach mW :=
  Reach.insert 2 20 (Reach.insert 1 10 (Reach.init hW))

theorem reachW2 : Reach mW2 := Reach.insert 7 70 (Reach.init hW)

theorem invW : Inv mW := reach_inv reachW

theorem invW2 : Inv mW2 := reach_inv reachW2

theorem claim_c1_witness :
    Reach mW ∧
      (mW.table.getD (mW.hash (2 : Nat) % mW.table.length) []).countP
        (fun a => decide (nextOf mW.elements a = some ⟨1, 2, 20⟩)) = 1 :=
  ⟨reachW, ((claim_c1 reachW).1 ⟨1, 2, 20⟩ (by decide)).1⟩

theorem claim_c2_witness :
    Inv mW ∧ (ReHash mW).elements = mW.elements ∧
      (ReHash mW).table.length = 2 * mW.table.length :=
  ⟨invW, (claim_c2 invW).1, (claim_c2 invW).2.2.1⟩

theorem claim_c3_witness :
    Inv mW ∧ find mW 5 = none ∧
      atVal (insert (insert mW 5 50) 5 99) 5 = some 50 :=
  ⟨invW, by decide, (claim_c3 invW 5 50 99).2 (by decide)⟩

theorem claim_c4_witness :
    Inv mW ∧ find mW 1 = some ⟨0, 1, 10⟩ ∧ find (erase mW 1) 1 = none ∧
      mW.size = (erase mW 1).size + 1 :=
  ⟨invW, by decide, (claim_c4 invW 1).1,
    ((claim_c4 invW 1).2.2 ⟨0, 1, 10⟩ (by decide)).1⟩

theorem claim_c5_witness :
    Inv mW ∧ find mW 5 = none ∧ atVal mW 5 = none ∧
      (opIndex mW 5).1.size = mW.size + 1 :=
  ⟨invW, by decide, ((claim_c5 invW 5).1 (by decide)).1,
    ((claim_c5 invW 5).1 (by decide)).2.2.1⟩

theorem claim_c6_witness :
    Reach mW ∧ (insert mW 3 30).size ≤ (insert mW 3 30).table.length ∧
      (erase mW 1).table.length = mW.table.length :=
  ⟨reachW, (claim_c6 hW reachW 3 30).2.2.1,
    (claim_c6 hW reachW 3 30).2.2.2.2.2.1⟩

theorem claim_c7_witness :
    ((([(1, 10), (2, 20), (3, 30)] : List (Nat × Nat)).map
      Prod.fst).Nodup) ∧
      (insertList (emptyMap hW) [(1, 10), (2, 20), (3, 30)]).size = 3 ∧
      (insertList (emptyMap hW) [(1, 10), (2, 20), (3, 30)]).elements.map
        (fun e => (e.key, e.val)) = [(3, 30), (2, 20), (1, 10)] :=
  ⟨by decide, (claim_c7 hW _ (by decide)).1, (claim_c7 hW _ (by decide)).2.2⟩

theorem claim_c8_witness :
    Inv mW ∧ (clear mW).size = 0 ∧ ∀ b, (clear mW).table.getD b [] = [] :=
  ⟨invW, (claim_c8 invW).1, (claim_c8 invW).2.2.2.1⟩

theorem claim_c9_witness :
    Inv mW ∧ Inv mW2 ∧ (copyAssignBody mW mW2).size = mW2.size :=
  ⟨invW, invW2, (claim_c9 invW invW2).1⟩

end UMapSpec
